import Mathlib

/-!
# Verification of the 2048+ board state machine

Shallow embedding of the game core found in `src/App.js` (identical in both
source files of the repository): the line reducer `slideLine`, the board
mover `move`, the spawner `spawn`, the board builder `toBoard` and the
terminal detector `anyMovesLeft`, together with proofs of the testable
properties stated in the specification.

Modelling conventions:
* JS tile objects `{id, r, c, value, bump}` become the `Tile` structure.
  The transient `dead` mark set on a merged-away tile is not modelled as a
  field: in the source the merge branch also writes `line[i] = null`, so a
  dead tile never remains reachable from the board and the final
  `filter (t => !t.dead)` never removes anything for tile sets produced by
  `spawn`/`move`; in the embedding the merged-away tile is simply removed
  from the line.
* `cloneTiles` copies tile objects so the caller's tiles are not mutated;
  in a value semantics this is the identity and is omitted.
* The JS `while (true)` scan in `slideLine` advances its cursor by one cell
  per iteration, so it performs at most `line.length` iterations; it is
  embedded as the fuelled recursion `scanDest` with fuel `line.length`.
* The fields `merges` (merge destination indices) and `relocs`
  (source/destination pairs of pure slides) of `LineState`, the returned
  `locked` set, and the `merges` field of `PassResult`/`MoveResult` are
  ghost instrumentation: they record events at exactly the program points
  where the source performs them (`locked.add`, the two `moved = true`
  branches) and do not influence `line`, `tiles`, `moved` or `gained`.
* Uses of `Math.random` are replaced by explicit parameters: `k` for the
  index drawn by `rnd(free.length)` (any natural, reduced mod the number of
  free cells, so every possible outcome is covered), `four` for the
  `Math.random() < bias` draw, and `newId` for the value produced by the
  `uid` counter.
-/

/-- A tile as stored in the tile set: `{id, r, c, value}` plus the `bump`
flag (`justMerged` in the specification's data model). -/
structure Tile where
  id : Nat
  r : Nat
  c : Nat
  value : Nat
  bump : Bool := false
deriving Repr, DecidableEq

/-- The 2-D board view: a list of rows, each a list of cells. -/
abbrev Board := List (List (Option Tile))

/-- `empty(n)`: an `n × n` grid of `null`s. -/
def emptyBoard (n : Nat) : Board :=
  List.replicate n (List.replicate n (none : Option Tile))

/-- Cell lookup `b[r][c]` (out-of-range reads give `null`). -/
def cellAt (b : Board) (r c : Nat) : Option Tile :=
  (b.getD r []).getD c none

/-- Cell write `b[r][c] = x`.  An out-of-range write is a no-op, which
matches the observable effect of the source: a write past the end of a row
extends the JS array beyond index `n-1`, where no later loop ever reads. -/
def setCell (b : Board) (r c : Nat) (x : Option Tile) : Board :=
  b.set r ((b.getD r []).set c x)

/-- `toBoard(tiles, n)`: place every tile at its own coordinates, in list
order (a later tile silently overwrites an earlier one at the same cell). -/
def toBoard (tiles : List Tile) (n : Nat) : Board :=
  tiles.foldl (fun b t => setCell b t.r t.c (some t)) (emptyBoard n)

/-- The scan of `slideLine`'s inner `while (true)` loop: starting from
cursor `ni`, step by `dir`; fall off the edge or stop in front of a
blocker, or land on an unlocked equal-valued tile.  `fuel` bounds the
iteration count; `slideLine` passes `line.length`, which the cursor can
never exhaust. -/
def scanDest (line : List (Option Tile)) (locked : List Nat) (v : Nat)
    (dir : Int) : Nat → Nat → Nat
  | 0, ni => ni
  | fuel + 1, ni =>
    let j : Int := (ni : Int) + dir
    if j < 0 ∨ (line.length : Int) ≤ j then ni
    else
      match line.getD j.toNat none with
      | none => scanDest line locked v dir fuel j.toNat
      | some u => if j.toNat ∉ locked ∧ u.value = v then j.toNat else ni

/-- The evolving state of one `slideLine` pass.  `line`, `moved`, `gained`
are the source's variables; `locked` is the source's `locked` set (as a
list used only through membership); `merges`/`relocs` are ghost event
logs. -/
structure LineState where
  line : List (Option Tile)
  locked : List Nat
  moved : Bool
  gained : Nat
  merges : List Nat
  relocs : List (Nat × Nat)
deriving Repr, DecidableEq

/-- One iteration of `slideLine`'s `for (const i of order)` loop. -/
def slideStep (dir : Int) (st : LineState) (i : Nat) : LineState :=
  match st.line.getD i none with
  | none => st
  | some t =>
    let ni := scanDest st.line st.locked t.value dir st.line.length i
    if ni = i then st
    else
      match st.line.getD ni none with
      | some u =>
        if u.value = t.value ∧ ni ∉ st.locked then
          { line := (st.line.set ni (some { u with value := u.value * 2, bump := true })).set i none
            locked := ni :: st.locked
            moved := true
            gained := st.gained + u.value * 2
            merges := st.merges ++ [ni]
            relocs := st.relocs }
        else
          { st with
            line := (st.line.set ni (some t)).set i none
            moved := true
            relocs := st.relocs ++ [(i, ni)] }
      | none =>
        { st with
          line := (st.line.set ni (some t)).set i none
          moved := true
          relocs := st.relocs ++ [(i, ni)] }

/-- `slideLine(line, dir)`: process source cells in the order nearest the
target edge first (`0..n-1` for `dir = -1`, reversed for `dir = +1`). -/
def slideLine (line : List (Option Tile)) (dir : Int) : LineState :=
  (if dir = 1 then (List.range line.length).reverse
   else List.range line.length).foldl (slideStep dir)
    { line := line, locked := [], moved := false, gained := 0, merges := [], relocs := [] }

/-- The coordinate fix-up `for c: if b[r][c] { b[r][c].r = r; b[r][c].c = c }`
applied to one row; `c0` is the column index of the first cell. -/
def fixRow : List (Option Tile) → Nat → Nat → List (Option Tile)
  | [], _, _ => []
  | o :: rest, r, c0 =>
    (o.map fun t => { t with r := r, c := c0 }) :: fixRow rest r (c0 + 1)

/-- Column extraction `Array.from({length:n}, (_, r) => b[r][c])` (for the
square boards the mover builds, one entry per row). -/
def getCol (b : Board) (c : Nat) : List (Option Tile) :=
  b.map (fun row => row.getD c none)

/-- The write-back loop of a vertical pass:
`for r: { b[r][c] = line[r]; if (b[r][c]) fix coords }`, consuming the slid
column row by row; `r0` is the row index of the first row. -/
def setColFixed : Board → Nat → List (Option Tile) → Nat → Board
  | [], _, _, _ => []
  | row :: rows, c, col, r0 =>
    row.set c ((col.getD 0 none).map fun t => { t with r := r0, c := c }) ::
      setColFixed rows c (col.drop 1) (r0 + 1)

/-- The collection loop of `move`: read the board row-major and keep the
non-null cells. -/
def collect (b : Board) : List Tile :=
  (b.map (fun row => row.filterMap id)).flatten

/-- Result of one full pass (all rows, or all columns) of the mover,
including the ghost list of merge destination cells. -/
structure PassResult where
  board : Board
  moved : Bool
  gained : Nat
  merges : List (Nat × Nat)
deriving Repr, DecidableEq

/-- The horizontal pass of `move`: slide every row, write it back with
fixed coordinates; `r0` is the index of the first row. -/
def moveRows : Board → Int → Nat → PassResult
  | [], _, _ => ⟨[], false, 0, []⟩
  | row :: rows, d, r0 =>
    let res := slideLine row d
    let rest := moveRows rows d (r0 + 1)
    ⟨fixRow res.line r0 0 :: rest.board,
      res.moved || rest.moved,
      res.gained + rest.gained,
      res.merges.map (fun j => (r0, j)) ++ rest.merges⟩

/-- One iteration of the vertical pass of `move`: slide column `c` and
write it back with fixed coordinates. -/
def moveColsStep (d : Int) (st : PassResult) (c : Nat) : PassResult :=
  let res := slideLine (getCol st.board c) d
  ⟨setColFixed st.board c res.line 0,
    st.moved || res.moved,
    st.gained + res.gained,
    st.merges ++ res.merges.map (fun j => (j, c))⟩

/-- The four move directions `'L' | 'R' | 'U' | 'D'`. -/
inductive Dir
  | L
  | R
  | U
  | D
deriving Repr, DecidableEq

/-- Result of `move`: the new tile set, the movement flag and the score
delta, plus the ghost list of merge destination cells. -/
structure MoveResult where
  tiles : List Tile
  moved : Bool
  gained : Nat
  merges : List (Nat × Nat)
deriving Repr, DecidableEq

/-- `move(tiles, n, dir)`: build the board, reduce every row (`L`/`R`,
direction `-1`/`+1`) or every column (`U`/`D`), fix coordinates, and
collect the surviving tiles row-major. -/
def move (tiles : List Tile) (n : Nat) (dir : Dir) : MoveResult :=
  let b := toBoard tiles n
  let p : PassResult :=
    match dir with
    | Dir.L => moveRows b (-1) 0
    | Dir.R => moveRows b 1 0
    | Dir.U => (List.range n).foldl (moveColsStep (-1)) ⟨b, false, 0, []⟩
    | Dir.D => (List.range n).foldl (moveColsStep 1) ⟨b, false, 0, []⟩
  ⟨collect p.board, p.moved, p.gained, p.merges⟩

/-- The `free` list of `spawn`: empty cells collected row-major. -/
def freeCells (b : Board) (n : Nat) : List (Nat × Nat) :=
  (List.range n).flatMap fun r =>
    (List.range n).filterMap fun c =>
      if cellAt b r c = none then some (r, c) else none

/-- `spawn(tiles, n, bias)` with the random draws made explicit: `k` is the
outcome of `rnd(free.length)` (any natural, reduced modulo the number of
free cells), `four` the outcome of `Math.random() < bias` (false means the
new value is 2), `newId` the fresh id produced by `uid()`. -/
def spawn (tiles : List Tile) (n : Nat) (k : Nat) (four : Bool) (newId : Nat) :
    List Tile :=
  if (freeCells (toBoard tiles n) n).length = 0 then tiles
  else
    tiles ++
      [{ id := newId,
         r := ((freeCells (toBoard tiles n) n).getD
           (k % (freeCells (toBoard tiles n) n).length) (0, 0)).1,
         c := ((freeCells (toBoard tiles n) n).getD
           (k % (freeCells (toBoard tiles n) n).length) (0, 0)).2,
         value := if four then 4 else 2 }]

/-- `anyMovesLeft(board)`: true when some cell is empty or some cell has an
equal-valued neighbour below or to the right. -/
def anyMovesLeft (board : Board) : Bool :=
  let n := board.length
  (List.range n).any fun r =>
    (List.range n).any fun c =>
      match cellAt board r c with
      | none => true
      | some t =>
        (decide (r + 1 < n) &&
          match cellAt board (r + 1) c with
          | some u => u.value == t.value
          | none => false) ||
        (decide (c + 1 < n) &&
          match cellAt board r (c + 1) with
          | some u => u.value == t.value
          | none => false)

/-- A well-formed tile set for grid size `n`: pairwise distinct cells and
in-range coordinates (the board invariant of the specification's data
model). -/
def wellFormed (tiles : List Tile) (n : Nat) : Prop :=
  (tiles.map fun t => (t.r, t.c)).Nodup ∧ ∀ t ∈ tiles, t.r < n ∧ t.c < n

instance (tiles : List Tile) (n : Nat) : Decidable (wellFormed tiles n) := by
  unfold wellFormed; infer_instance

/-! ## Derived predicates and measures used in the statements -/

/-- Value of a cell (0 for an empty cell). -/
def optVal (o : Option Tile) : Nat :=
  match o with
  | none => 0
  | some t => t.value

/-- Sum of the tile values of one line. -/
def sumLine (l : List (Option Tile)) : Nat := (l.map optVal).sum

/-- Sum of the values of a tile set. -/
def sumTiles (l : List Tile) : Nat := (l.map Tile.value).sum

/-- Sum of all tile values on a board. -/
def sumBoard (b : Board) : Nat := (b.map sumLine).sum

/-- An `n × n` board: `n` rows of `n` cells. -/
def squareBoard (b : Board) (n : Nat) : Prop :=
  b.length = n ∧ ∀ row ∈ b, row.length = n

/-- Coherence of a board whose first row has row index `r0`: every tile
sits at the cell named by its own coordinates. -/
def rowsCoherent (b : Board) (r0 : Nat) : Prop :=
  ∀ i c t, cellAt b i c = some t → t.r = r0 + i ∧ t.c = c

/-- Specification-side predicate: the board has zero empty cells (within
the `n × n` view, `n` the number of rows). -/
def boardFull (b : Board) : Prop :=
  ∀ r c, r < b.length → c < b.length → cellAt b r c ≠ none

/-- Specification-side predicate: zero adjacent equal pairs, column-wise
and row-wise, within the `n × n` view. -/
def noAdjacentEqualPairs (b : Board) : Prop :=
  (∀ r c u w, r + 1 < b.length → c < b.length → cellAt b r c = some u →
    cellAt b (r + 1) c = some w → u.value ≠ w.value) ∧
  (∀ r c u w, r < b.length → c + 1 < b.length → cellAt b r c = some u →
    cellAt b r (c + 1) = some w → u.value ≠ w.value)

/-- An `n`-cell line whose only tiles sit at positions `p0`, `p1`, `p2`:
the general shape of the specification's three-equal-tiles scenario (the
tiles are consecutive in slide order; empty cells may separate them). -/
def threeTileLine (n p0 p1 p2 : Nat) (t0 t1 t2 : Tile) : List (Option Tile) :=
  (List.range n).map fun i =>
    if i = p0 then some t0
    else if i = p1 then some t1
    else if i = p2 then some t2
    else none

/-- The contiguous index segment `[a, a + k)`. -/
def segMap (a k : Nat) : List Nat := (List.range k).map (a + ·)

/-! ## Basic list lemmas -/

theorem getD_set_self {α : Type} (l : List α) (i : Nat) (x d : α)
    (h : i < l.length) : (l.set i x).getD i d = x := by
  induction l generalizing i with
  | nil => simp at h
  | cons a t ih =>
    cases i with
    | zero => rfl
    | succ j => simpa [List.set, List.getD] using ih j (by simpa using h)

theorem getD_set_ne {α : Type} (l : List α) (i j : Nat) (x d : α)
    (h : i ≠ j) : (l.set i x).getD j d = l.getD j d := by
  induction l generalizing i j with
  | nil => rfl
  | cons a t ih =>
    cases i with
    | zero =>
      cases j with
      | zero => exact absurd rfl h
      | succ j2 => rfl
    | succ i2 =>
      cases j with
      | zero => rfl
      | succ j2 =>
        simpa [List.set, List.getD] using ih i2 j2 (by omega)

theorem set_getD_self {α : Type} (l : List α) (i : Nat) (d : α) :
    l.set i (l.getD i d) = l := by
  induction l generalizing i with
  | nil => rfl
  | cons a t ih =>
    cases i with
    | zero => rfl
    | succ j => simpa [List.set, List.getD] using ih j

theorem drop_one_getD {α : Type} (l : List α) (i : Nat) (d : α) :
    (l.drop 1).getD i d = l.getD (i + 1) d := by
  cases l <;> rfl

theorem sum_map_set {α : Type} (f : α → Nat) (l : List α) (i : Nat) (x d : α)
    (h : i < l.length) :
    ((l.set i x).map f).sum + f (l.getD i d) = (l.map f).sum + f x := by
  induction l generalizing i with
  | nil => simp at h
  | cons a t ih =>
    cases i with
    | zero => simp only [List.set, List.map, List.sum_cons, List.getD_cons_zero]; omega
    | succ j =>
      have := ih j (by simpa using h)
      simp only [List.set, List.map, List.sum_cons, List.getD_cons_succ] at *
      omega

/-! ## Values and sums -/


theorem sumLine_set (l : List (Option Tile)) (i : Nat) (x : Option Tile)
    (h : i < l.length) :
    sumLine (l.set i x) + optVal (l.getD i none) = sumLine l + optVal x :=
  sum_map_set optVal l i x none h

/-! ## The scan: where a tile can land -/

/-- Unfolding equation for one iteration of the scan. -/
theorem scanDest_succ (line : List (Option Tile)) (locked : List Nat)
    (v : Nat) (d : Int) (fuel ni : Nat) :
    scanDest line locked v d (fuel + 1) ni =
      if (ni : Int) + d < 0 ∨ (line.length : Int) ≤ (ni : Int) + d then ni
      else
        match line.getD (((ni : Int) + d).toNat) none with
        | none => scanDest line locked v d fuel (((ni : Int) + d).toNat)
        | some u =>
          if ((ni : Int) + d).toNat ∉ locked ∧ u.value = v then
            ((ni : Int) + d).toNat
          else ni := rfl

/-- The destination returned by the scan is the start index itself, an
in-range empty cell, or an in-range unlocked cell holding a tile of the
scanned value. -/
theorem scanDest_spec (line : List (Option Tile)) (locked : List Nat)
    (v : Nat) (d : Int) (fuel ni : Nat) :
    scanDest line locked v d fuel ni = ni ∨
      (scanDest line locked v d fuel ni < line.length ∧
        (line.getD (scanDest line locked v d fuel ni) none = none ∨
          ∃ u, line.getD (scanDest line locked v d fuel ni) none = some u ∧
            u.value = v ∧ scanDest line locked v d fuel ni ∉ locked)) := by
  induction fuel generalizing ni with
  | zero => exact Or.inl rfl
  | succ fuel ih =>
    rw [scanDest_succ]
    by_cases hedge : ((ni : Int) + d < 0 ∨ (line.length : Int) ≤ (ni : Int) + d)
    · rw [if_pos hedge]
      exact Or.inl rfl
    · rw [if_neg hedge]
      have hrange : (((ni : Int) + d).toNat) < line.length := by
        push_neg at hedge
        omega
      cases hcell : line.getD (((ni : Int) + d).toNat) none with
      | none =>
        dsimp only
        rcases ih (((ni : Int) + d).toNat) with h | h
        · rw [h]
          exact Or.inr ⟨hrange, Or.inl hcell⟩
        · exact Or.inr h
      | some u =>
        dsimp only
        by_cases hc : (((ni : Int) + d).toNat ∉ locked ∧ u.value = v)
        · rw [if_pos hc]
          exact Or.inr ⟨hrange, Or.inr ⟨u, hcell, hc.2, hc.1⟩⟩
        · rw [if_neg hc]
          exact Or.inl rfl

@[simp] theorem optVal_none : optVal none = 0 := rfl

@[simp] theorem optVal_some (t : Tile) : optVal (some t) = t.value := rfl

/-! ## One step of the line reducer -/

theorem slideStep_skip (d : Int) (st : LineState) (i : Nat)
    (h : st.line.getD i none = none) : slideStep d st i = st := by
  unfold slideStep
  rw [h]

/-- Exhaustive behaviour of one loop iteration: it is a no-op, a merge into
an in-range unlocked equal-valued destination, or a relocation of the tile
into an in-range empty destination.  (A relocation onto an occupied cell is
impossible: `scanDest_spec` rules it out.) -/
theorem slideStep_cases (d : Int) (st : LineState) (i : Nat) :
    slideStep d st i = st ∨
    (∃ t u ni, st.line.getD i none = some t ∧
      ni = scanDest st.line st.locked t.value d st.line.length i ∧
      ni ≠ i ∧ ni < st.line.length ∧
      st.line.getD ni none = some u ∧ u.value = t.value ∧ ni ∉ st.locked ∧
      slideStep d st i =
        { line := (st.line.set ni
            (some { u with value := u.value * 2, bump := true })).set i none
          locked := ni :: st.locked
          moved := true
          gained := st.gained + u.value * 2
          merges := st.merges ++ [ni]
          relocs := st.relocs }) ∨
    (∃ t ni, st.line.getD i none = some t ∧
      ni = scanDest st.line st.locked t.value d st.line.length i ∧
      ni ≠ i ∧ ni < st.line.length ∧
      st.line.getD ni none = none ∧
      slideStep d st i =
        { st with
            line := (st.line.set ni (some t)).set i none
            moved := true
            relocs := st.relocs ++ [(i, ni)] }) := by
  unfold slideStep
  cases hcell : st.line.getD i none with
  | none => exact Or.inl rfl
  | some t =>
    dsimp only
    by_cases hni : scanDest st.line st.locked t.value d st.line.length i = i
    · rw [if_pos hni]
      exact Or.inl rfl
    · rw [if_neg hni]
      rcases scanDest_spec st.line st.locked t.value d st.line.length i with
        h | ⟨hlt, hrest⟩
      · exact absurd h hni
      cases h2 : st.line.getD (scanDest st.line st.locked t.value d st.line.length i)
          none with
      | none =>
        dsimp only
        exact Or.inr (Or.inr ⟨t, _, rfl, rfl, hni, hlt, h2, rfl⟩)
      | some u =>
        dsimp only
        have hcond : u.value = t.value ∧
            scanDest st.line st.locked t.value d st.line.length i ∉ st.locked := by
          rcases hrest with hnone | ⟨u2, hu2, hval, hnl⟩
          · rw [h2] at hnone; exact Option.noConfusion hnone
          · rw [h2] at hu2
            have he : u2 = u := by injection hu2.symm
            exact ⟨he ▸ hval, hnl⟩
        rw [if_pos hcond]
        exact Or.inr (Or.inl ⟨t, u, _, rfl, rfl, hni, hlt, h2, hcond.1, hcond.2, rfl⟩)

theorem slideStep_length (d : Int) (st : LineState) (i : Nat) :
    (slideStep d st i).line.length = st.line.length := by
  rcases slideStep_cases d st i with h | ⟨t, u, ni, _, _, _, _, _, _, _, h⟩ |
    ⟨t, ni, _, _, _, _, _, h⟩ <;> rw [h] <;> simp [List.length_set]

theorem slideStep_eq_or_moved (d : Int) (st : LineState) (i : Nat) :
    slideStep d st i = st ∨ (slideStep d st i).moved = true := by
  rcases slideStep_cases d st i with h | ⟨t, u, ni, _, _, _, _, _, _, _, h⟩ |
    ⟨t, ni, _, _, _, _, _, h⟩
  · exact Or.inl h
  · rw [h]; exact Or.inr rfl
  · rw [h]; exact Or.inr rfl

theorem slideStep_moved_mono (d : Int) (st : LineState) (i : Nat)
    (h : st.moved = true) : (slideStep d st i).moved = true := by
  rcases slideStep_eq_or_moved d st i with he | hm
  · rw [he]; exact h
  · exact hm

theorem slideStep_sum (d : Int) (st : LineState) (i : Nat)
    (hi : i < st.line.length) :
    sumLine (slideStep d st i).line = sumLine st.line := by
  rcases slideStep_cases d st i with h | ⟨t, u, ni, hcell, _, hne, hlt, h2, hv, _, h⟩ |
    ⟨t, ni, hcell, _, hne, hlt, h2, h⟩
  · rw [h]
  · rw [h]
    dsimp only
    have e1 := sumLine_set st.line ni
      (some { u with value := u.value * 2, bump := true }) hlt
    have e2 := sumLine_set
      (st.line.set ni (some { u with value := u.value * 2, bump := true }))
      i none (by rw [List.length_set]; exact hi)
    rw [getD_set_ne _ _ _ _ _ hne, hcell] at e2
    rw [h2] at e1
    simp only [optVal_none, optVal_some, Nat.add_zero] at e1 e2
    omega
  · rw [h]
    dsimp only
    have e1 := sumLine_set st.line ni (some t) hlt
    have e2 := sumLine_set (st.line.set ni (some t)) i none
      (by rw [List.length_set]; exact hi)
    rw [getD_set_ne _ _ _ _ _ hne, hcell] at e2
    rw [h2] at e1
    simp only [optVal_none, optVal_some, Nat.add_zero] at e1 e2
    omega

theorem slideStep_merges_inv (d : Int) (st : LineState) (i : Nat)
    (h : st.merges.Nodup ∧ ∀ x ∈ st.merges, x ∈ st.locked) :
    (slideStep d st i).merges.Nodup ∧
      ∀ x ∈ (slideStep d st i).merges, x ∈ (slideStep d st i).locked := by
  rcases slideStep_cases d st i with he | ⟨t, u, ni, _, _, _, _, _, _, hnl, he⟩ |
    ⟨t, ni, _, _, _, _, _, he⟩
  · rw [he]; exact h
  · rw [he]
    constructor
    · rw [List.nodup_append]
      exact ⟨h.1, List.nodup_singleton ni,
        fun x hx => by
          simp only [List.mem_singleton]
          intro hex
          exact hnl (hex ▸ h.2 x hx)⟩
    · intro x hx
      rcases List.mem_append.mp hx with hx | hx
      · exact List.mem_cons_of_mem _ (h.2 x hx)
      · simp only [List.mem_singleton] at hx
        exact hx ▸ List.mem_cons_self _ _
  · rw [he]; exact h

theorem slideStep_moved_iff (d : Int) (st : LineState) (i : Nat)
    (h : st.moved = true ↔ st.merges ≠ [] ∨ st.relocs ≠ []) :
    (slideStep d st i).moved = true ↔
      (slideStep d st i).merges ≠ [] ∨ (slideStep d st i).relocs ≠ [] := by
  rcases slideStep_cases d st i with he | ⟨t, u, ni, _, _, _, _, _, _, _, he⟩ |
    ⟨t, ni, _, _, _, _, _, he⟩ <;> rw [he]
  · exact h
  · simp
  · simp

/-! ## Folding the line reducer over an index order -/

theorem foldl_slideStep_length (d : Int) :
    ∀ (is : List Nat) (st : LineState),
      ((is.foldl (slideStep d) st).line.length = st.line.length)
  | [], st => rfl
  | i :: rest, st => by
    rw [List.foldl_cons, foldl_slideStep_length d rest, slideStep_length]

theorem foldl_slideStep_sum (d : Int) :
    ∀ (is : List Nat) (st : LineState),
      (∀ i ∈ is, i < st.line.length) →
      sumLine ((is.foldl (slideStep d) st).line) = sumLine st.line
  | [], st, _ => rfl
  | i :: rest, st, h => by
    rw [List.foldl_cons,
      foldl_slideStep_sum d rest (slideStep d st i)
        (fun j hj => by rw [slideStep_length]; exact h j (List.mem_cons_of_mem _ hj)),
      slideStep_sum d st i (h i (List.mem_cons_self _ _))]

theorem foldl_slideStep_moved_mono (d : Int) :
    ∀ (is : List Nat) (st : LineState), st.moved = true →
      (is.foldl (slideStep d) st).moved = true
  | [], st, h => h
  | i :: rest, st, h => by
    rw [List.foldl_cons]
    exact foldl_slideStep_moved_mono d rest _ (slideStep_moved_mono d st i h)

theorem foldl_slideStep_not_moved (d : Int) :
    ∀ (is : List Nat) (st : LineState),
      (is.foldl (slideStep d) st).moved = false →
      is.foldl (slideStep d) st = st
  | [], st, _ => rfl
  | i :: rest, st, h => by
    rw [List.foldl_cons] at h ⊢
    rcases slideStep_eq_or_moved d st i with he | hm
    · rw [he] at h ⊢
      exact foldl_slideStep_not_moved d rest st h
    · rw [foldl_slideStep_moved_mono d rest _ hm] at h
      exact Bool.noConfusion h

theorem foldl_slideStep_merges_nodup (d : Int) :
    ∀ (is : List Nat) (st : LineState),
      st.merges.Nodup ∧ (∀ x ∈ st.merges, x ∈ st.locked) →
      (is.foldl (slideStep d) st).merges.Nodup
  | [], _, h => h.1
  | i :: rest, st, h => by
    rw [List.foldl_cons]
    exact foldl_slideStep_merges_nodup d rest _ (slideStep_merges_inv d st i h)

theorem foldl_slideStep_moved_iff (d : Int) :
    ∀ (is : List Nat) (st : LineState),
      (st.moved = true ↔ st.merges ≠ [] ∨ st.relocs ≠ []) →
      ((is.foldl (slideStep d) st).moved = true ↔
        (is.foldl (slideStep d) st).merges ≠ [] ∨
          (is.foldl (slideStep d) st).relocs ≠ [])
  | [], _, h => h
  | i :: rest, st, h => by
    rw [List.foldl_cons]
    exact foldl_slideStep_moved_iff d rest _ (slideStep_moved_iff d st i h)

/-! ## Line reducer facts -/

theorem slideLine_length (l : List (Option Tile)) (d : Int) :
    (slideLine l d).line.length = l.length := by
  unfold slideLine
  rw [foldl_slideStep_length]

theorem slideLine_sum (l : List (Option Tile)) (d : Int) :
    sumLine (slideLine l d).line = sumLine l := by
  unfold slideLine
  apply foldl_slideStep_sum
  intro i hi
  split at hi
  · rw [List.mem_reverse, List.mem_range] at hi; exact hi
  · rw [List.mem_range] at hi; exact hi

theorem slideLine_not_moved (l : List (Option Tile)) (d : Int)
    (h : (slideLine l d).moved = false) :
    (slideLine l d).line = l ∧ (slideLine l d).gained = 0 := by
  unfold slideLine at h ⊢
  rw [foldl_slideStep_not_moved d _ _ h]
  exact ⟨rfl, rfl⟩

theorem slideLine_merges_nodup (l : List (Option Tile)) (d : Int) :
    (slideLine l d).merges.Nodup := by
  unfold slideLine
  exact foldl_slideStep_merges_nodup d _ _ ⟨List.nodup_nil, by simp⟩

theorem slideLine_moved_iff (l : List (Option Tile)) (d : Int) :
    (slideLine l d).moved = true ↔
      (slideLine l d).merges ≠ [] ∨ (slideLine l d).relocs ≠ [] := by
  unfold slideLine
  exact foldl_slideStep_moved_iff d _ _ (by simp)

/-! ## Boards: squareness, cell access, `toBoard` -/


theorem getD_replicate {α : Type} (k : Nat) (x d : α) (i : Nat) :
    (List.replicate k x).getD i d = if i < k then x else d := by
  induction k generalizing i with
  | zero => simp [List.replicate]
  | succ k2 ih =>
    cases i with
    | zero => simp [List.replicate]
    | succ j => simpa [List.replicate, List.getD_cons_succ] using ih j

theorem squareBoard_empty (n : Nat) : squareBoard (emptyBoard n) n := by
  constructor
  · simp [emptyBoard]
  · intro row hrow
    rw [List.eq_of_mem_replicate hrow]
    simp

theorem cellAt_empty (n r c : Nat) : cellAt (emptyBoard n) r c = none := by
  unfold cellAt emptyBoard
  rw [getD_replicate]
  split
  · rw [getD_replicate]
    split <;> rfl
  · rfl

theorem getD_set_general {α : Type} (l : List α) (i j : Nat) (x d : α) :
    (l.set i x).getD j d = if i = j ∧ i < l.length then x else l.getD j d := by
  by_cases he : i = j ∧ i < l.length
  · rw [if_pos he]
    obtain ⟨hij, hlt⟩ := he
    subst hij
    exact getD_set_self l i x d hlt
  · rw [if_neg he]
    by_cases hij : i = j
    · subst hij
      have hle : l.length ≤ i := by
        rcases Nat.lt_or_ge i l.length with h | h
        · exact absurd ⟨rfl, h⟩ he
        · exact h
      rw [List.set_eq_of_length_le hle]
    · exact getD_set_ne l i j x d hij

theorem length_setCell (b : Board) (r c : Nat) (x : Option Tile) :
    (setCell b r c x).length = b.length := by
  simp [setCell]

theorem getD_mem_of_lt {α : Type} (l : List α) (i : Nat) (d : α)
    (h : i < l.length) : l.getD i d ∈ l := by
  rw [List.getD_eq_getElem l d h]
  exact List.getElem_mem h

theorem squareBoard_setCell (b : Board) (n r c : Nat) (x : Option Tile)
    (h : squareBoard b n) : squareBoard (setCell b r c x) n := by
  by_cases hr : r < b.length
  · refine ⟨by rw [length_setCell]; exact h.1, ?_⟩
    intro row hrow
    rcases List.mem_or_eq_of_mem_set hrow with hmem | heq
    · exact h.2 row hmem
    · subst heq
      rw [List.length_set]
      exact h.2 _ (getD_mem_of_lt b r [] hr)
  · unfold setCell
    rw [List.set_eq_of_length_le (by omega)]
    exact h

/-- Full description of a cell write: the written cell holds `x` when the
write is in range, every other cell (and any out-of-range write) leaves the
board unchanged. -/
theorem cellAt_setCell (b : Board) (r c : Nat) (x : Option Tile) (i j : Nat) :
    cellAt (setCell b r c x) i j =
      if r = i ∧ r < b.length ∧ c = j ∧ c < (b.getD r []).length then x
      else cellAt b i j := by
  unfold cellAt setCell
  rw [getD_set_general]
  by_cases hri : r = i ∧ r < b.length
  · rw [if_pos hri]
    rw [getD_set_general]
    by_cases hcj : c = j ∧ c < (b.getD r []).length
    · rw [if_pos hcj, if_pos ⟨hri.1, hri.2, hcj.1, hcj.2⟩]
    · rw [if_neg hcj, if_neg (by tauto), hri.1]
  · rw [if_neg hri, if_neg (by tauto)]

theorem squareBoard_toBoard (tiles : List Tile) (n : Nat) :
    squareBoard (toBoard tiles n) n := by
  unfold toBoard
  have : ∀ (ts : List Tile) (b : Board), squareBoard b n →
      squareBoard (ts.foldl (fun b t => setCell b t.r t.c (some t)) b) n := by
    intro ts
    induction ts with
    | nil => intro b h; exact h
    | cons t ts ih =>
      intro b h
      exact ih _ (squareBoard_setCell b n t.r t.c (some t) h)
  exact this tiles (emptyBoard n) (squareBoard_empty n)


theorem rowsCoherent_toBoard (tiles : List Tile) (n : Nat) :
    rowsCoherent (toBoard tiles n) 0 := by
  unfold toBoard
  have : ∀ (ts : List Tile) (b : Board), rowsCoherent b 0 →
      rowsCoherent (ts.foldl (fun b t => setCell b t.r t.c (some t)) b) 0 := by
    intro ts
    induction ts with
    | nil => intro b h; exact h
    | cons t ts ih =>
      intro b h
      refine ih _ ?_
      intro i c u hu
      rw [cellAt_setCell] at hu
      split at hu
      · rename_i hcond
        cases hu
        omega
      · exact h i c u hu
  exact this tiles (emptyBoard n) (by
    intro i c u hu
    rw [cellAt_empty] at hu
    exact Option.noConfusion hu)

/-! ## Collecting tiles from a board -/

theorem sumTiles_filterMap (row : List (Option Tile)) :
    sumTiles (row.filterMap id) = sumLine row := by
  induction row with
  | nil => rfl
  | cons o rest ih =>
    cases o with
    | none => simpa [sumLine, optVal_none] using ih
    | some t =>
      simp only [List.filterMap_cons, id]
      simpa [sumTiles, sumLine] using ih

theorem collect_cons (row : List (Option Tile)) (rest : Board) :
    collect (row :: rest) = row.filterMap id ++ collect rest := by
  simp [collect]

theorem sumTiles_append (l1 l2 : List Tile) :
    sumTiles (l1 ++ l2) = sumTiles l1 + sumTiles l2 := by
  simp [sumTiles]

theorem sumTiles_collect (b : Board) : sumTiles (collect b) = sumBoard b := by
  induction b with
  | nil => rfl
  | cons row rest ih =>
    rw [collect_cons, sumTiles_append, sumTiles_filterMap, ih]
    rfl

theorem collect_empty (n : Nat) : collect (emptyBoard n) = [] := by
  unfold collect emptyBoard
  induction n with
  | zero => rfl
  | succ k ih =>
    rw [List.replicate_succ, List.map_cons, List.flatten_cons]
    have hrow : (List.replicate (k + 1) (none : Option Tile)).filterMap id = [] := by
      induction (k + 1) with
      | zero => rfl
      | succ m ihm => rw [List.replicate_succ, List.filterMap_cons]; exact ihm
    rw [hrow, List.nil_append]
    -- the remaining rows are replicate k of a row of length k+1; flatten is
    -- still empty because each row filters to []
    have : ∀ (m : Nat) (row : List (Option Tile)), row.filterMap id = [] →
        ((List.replicate m row).map (fun r => r.filterMap id)).flatten = [] := by
      intro m row hrow2
      induction m with
      | zero => rfl
      | succ m2 ihm2 =>
        rw [List.replicate_succ, List.map_cons, List.flatten_cons, hrow2,
          List.nil_append]
        exact ihm2
    exact this k _ hrow

theorem filterMap_set_none_perm (l : List (Option Tile)) (c : Nat) (t : Tile)
    (hc : c < l.length) (hnone : l.getD c none = none) :
    ((l.set c (some t)).filterMap id).Perm (t :: l.filterMap id) := by
  induction l generalizing c with
  | nil => simp at hc
  | cons o rest ih =>
    cases c with
    | zero =>
      rw [List.getD_cons_zero] at hnone
      subst hnone
      simp [List.set]
    | succ c2 =>
      rw [List.getD_cons_succ] at hnone
      have hperm := ih c2 (by simpa using hc) hnone
      cases o with
      | none =>
        simpa [List.set, List.filterMap_cons] using hperm
      | some u =>
        simp only [List.set, List.filterMap_cons, id]
        exact (hperm.cons u).trans (List.Perm.swap t u _)

theorem collect_setCell_perm (b : Board) (r c : Nat) (t : Tile)
    (hr : r < b.length) (hc : c < (b.getD r []).length)
    (hnone : cellAt b r c = none) :
    (collect (setCell b r c (some t))).Perm (t :: collect b) := by
  induction b generalizing r with
  | nil => simp at hr
  | cons row rest ih =>
    cases r with
    | zero =>
      rw [List.getD_cons_zero] at hc
      unfold cellAt at hnone
      rw [List.getD_cons_zero] at hnone
      show (collect ((row.set c (some t)) :: rest)).Perm (t :: collect (row :: rest))
      rw [collect_cons, collect_cons]
      exact (filterMap_set_none_perm row c t hc hnone).append_right (collect rest)
    | succ r2 =>
      rw [List.getD_cons_succ] at hc
      unfold cellAt at hnone
      rw [List.getD_cons_succ] at hnone
      have hperm := ih r2 (by simpa using hr) hc hnone
      show (collect (row :: setCell rest r2 c (some t))).Perm (t :: collect (row :: rest))
      rw [collect_cons, collect_cons]
      exact ((hperm.append_left (row.filterMap id)).trans
        (@List.perm_middle _ t (row.filterMap id) (collect rest)))

theorem collect_foldl_perm (n : Nat) :
    ∀ (ts : List Tile) (b : Board), squareBoard b n →
      (ts.map fun t => (t.r, t.c)).Nodup →
      (∀ t ∈ ts, t.r < n ∧ t.c < n) →
      (∀ t ∈ ts, cellAt b t.r t.c = none) →
      (collect (ts.foldl (fun b t => setCell b t.r t.c (some t)) b)).Perm
        (ts ++ collect b)
  | [], b, _, _, _, _ => List.Perm.refl _
  | t :: ts, b, hsq, hnd, hin, hnone => by
    rw [List.foldl_cons]
    have hrange := hin t (List.mem_cons_self _ _)
    have hrb : t.r < b.length := hsq.1 ▸ hrange.1
    have hcb : t.c < (b.getD t.r []).length := by
      rw [hsq.2 _ (getD_mem_of_lt b t.r [] hrb)]
      exact hrange.2
    have hnd2 : (ts.map fun u => (u.r, u.c)).Nodup := (List.nodup_cons.mp hnd).2
    have hhead : (t.r, t.c) ∉ ts.map fun u => (u.r, u.c) :=
      (List.nodup_cons.mp hnd).1
    have hstep := collect_foldl_perm n ts (setCell b t.r t.c (some t))
      (squareBoard_setCell b n t.r t.c (some t) hsq) hnd2
      (fun u hu => hin u (List.mem_cons_of_mem _ hu))
      (fun u hu => by
        rw [cellAt_setCell]
        split
        · rename_i hcond
          exfalso
          apply hhead
          rw [List.mem_map]
          exact ⟨u, hu, by rw [hcond.1, hcond.2.2.1]⟩
        · exact hnone u (List.mem_cons_of_mem _ hu))
    refine hstep.trans ?_
    have hset := collect_setCell_perm b t.r t.c t hrb hcb
      (hnone t (List.mem_cons_self _ _))
    refine ((hset.append_left ts).trans ?_)
    exact @List.perm_middle _ t ts (collect b)

/-- Under the board invariant, reading the board back yields exactly the
input tile set (as a multiset). -/
theorem collect_toBoard_perm (tiles : List Tile) (n : Nat)
    (h : wellFormed tiles n) : (collect (toBoard tiles n)).Perm tiles := by
  unfold toBoard
  have := collect_foldl_perm n tiles (emptyBoard n) (squareBoard_empty n)
    h.1 h.2 (fun t _ => cellAt_empty n t.r t.c)
  rw [collect_empty] at this
  simpa using this

/-! ## The coordinate fix-up and the vertical write-back -/

theorem tile_fix_eq (t : Tile) (r c : Nat) (h1 : t.r = r) (h2 : t.c = c) :
    ({ t with r := r, c := c } : Tile) = t := by
  cases t
  simp only at h1 h2
  rw [h1, h2]

theorem optVal_map_fix (o : Option Tile) (r c : Nat) :
    optVal (o.map fun t => { t with r := r, c := c }) = optVal o := by
  cases o <;> rfl

theorem fixRow_length (l : List (Option Tile)) (r c0 : Nat) :
    (fixRow l r c0).length = l.length := by
  induction l generalizing c0 with
  | nil => rfl
  | cons o rest ih => simp [fixRow, ih]

theorem fixRow_sum (l : List (Option Tile)) (r c0 : Nat) :
    sumLine (fixRow l r c0) = sumLine l := by
  induction l generalizing c0 with
  | nil => rfl
  | cons o rest ih =>
    show optVal (o.map _) + sumLine (fixRow rest r (c0 + 1)) = optVal o + sumLine rest
    rw [optVal_map_fix, ih]

theorem fixRow_getD (l : List (Option Tile)) (r c0 i : Nat) :
    (fixRow l r c0).getD i none =
      (l.getD i none).map fun t => { t with r := r, c := c0 + i } := by
  induction l generalizing c0 i with
  | nil => simp [fixRow, List.getD]
  | cons o rest ih =>
    cases i with
    | zero => simp [fixRow]
    | succ j =>
      show (fixRow rest r (c0 + 1)).getD j none = _
      rw [ih (c0 + 1) j]
      have : c0 + 1 + j = c0 + (j + 1) := by omega
      rw [this]
      rfl

theorem fixRow_id_of_coherent (l : List (Option Tile)) (r c0 : Nat)
    (h : ∀ i t, l.getD i none = some t → t.r = r ∧ t.c = c0 + i) :
    fixRow l r c0 = l := by
  induction l generalizing c0 with
  | nil => rfl
  | cons o rest ih =>
    unfold fixRow
    have htail : fixRow rest r (c0 + 1) = rest := by
      apply ih
      intro i t ht
      have := h (i + 1) t (by rwa [List.getD_cons_succ])
      refine ⟨this.1, ?_⟩
      rw [this.2]
      omega
    rw [htail]
    cases o with
    | none => rfl
    | some t =>
      have hco := h 0 t (by rw [List.getD_cons_zero])
      have h2 : t.c = c0 := by have := hco.2; omega
      have he : Option.map (fun u => ({ u with r := r, c := c0 } : Tile)) (some t)
          = some t := by
        rw [show Option.map (fun u => ({ u with r := r, c := c0 } : Tile)) (some t)
          = some ({ t with r := r, c := c0 } : Tile) from rfl,
          tile_fix_eq t r c0 hco.1 h2]
      rw [he]

theorem getCol_length (b : Board) (c : Nat) : (getCol b c).length = b.length := by
  simp [getCol]

theorem setColFixed_length (b : Board) (c : Nat) (col : List (Option Tile))
    (r0 : Nat) : (setColFixed b c col r0).length = b.length := by
  induction b generalizing col r0 with
  | nil => rfl
  | cons row rest ih => simp [setColFixed, ih]

theorem setColFixed_cellAt_ne (b : Board) (c : Nat) (col : List (Option Tile))
    (r0 i j : Nat) (hj : j ≠ c) :
    cellAt (setColFixed b c col r0) i j = cellAt b i j := by
  induction b generalizing col r0 i with
  | nil => rfl
  | cons row rest ih =>
    cases i with
    | zero =>
      show (row.set c _).getD j none = row.getD j none
      exact getD_set_ne row c j _ none (fun he => hj he.symm)
    | succ i2 =>
      show cellAt (setColFixed rest c (col.drop 1) (r0 + 1)) i2 j = cellAt rest i2 j
      exact ih (col.drop 1) (r0 + 1) i2

theorem setColFixed_cellAt_eq (b : Board) (c : Nat) (col : List (Option Tile))
    (r0 i : Nat) (hi : i < b.length) (hc : c < (b.getD i []).length) :
    cellAt (setColFixed b c col r0) i c =
      (col.getD i none).map fun t => { t with r := r0 + i, c := c } := by
  induction b generalizing col r0 i with
  | nil => simp at hi
  | cons row rest ih =>
    cases i with
    | zero =>
      rw [List.getD_cons_zero] at hc
      show (row.set c _).getD c none = (col.getD 0 none).map _
      rw [getD_set_self _ _ _ _ hc]
      rfl
    | succ i2 =>
      rw [List.getD_cons_succ] at hc
      show cellAt (setColFixed rest c (col.drop 1) (r0 + 1)) i2 c = _
      rw [ih (col.drop 1) (r0 + 1) i2 (by simpa using hi) hc, drop_one_getD]
      have : r0 + 1 + i2 = r0 + (i2 + 1) := by omega
      rw [this]

theorem setColFixed_rows_length (n c : Nat) :
    ∀ (b : Board) (col : List (Option Tile)) (r0 : Nat),
      (∀ row ∈ b, row.length = n) →
      ∀ row2 ∈ setColFixed b c col r0, row2.length = n
  | [], _, _, _, row2, hmem => by simp [setColFixed] at hmem
  | row :: rest, col, r0, h, row2, hmem => by
    rcases hmem with _ | hmem2
    · rw [List.length_set]
      exact h row (List.mem_cons_self _ _)
    · exact setColFixed_rows_length n c rest (col.drop 1) (r0 + 1)
        (fun rr hrr => h rr (List.mem_cons_of_mem _ hrr)) row2 (by assumption)

theorem squareBoard_setColFixed (b : Board) (n c : Nat)
    (col : List (Option Tile)) (r0 : Nat) (h : squareBoard b n) :
    squareBoard (setColFixed b c col r0) n :=
  ⟨by rw [setColFixed_length]; exact h.1,
    setColFixed_rows_length n c b col r0 h.2⟩

theorem setColFixed_sum (b : Board) (c : Nat) (col : List (Option Tile))
    (r0 : Nat) (hlen : col.length = b.length)
    (hc : ∀ row ∈ b, c < row.length) :
    sumBoard (setColFixed b c col r0) + sumLine (getCol b c) =
      sumBoard b + sumLine col := by
  induction b generalizing col r0 with
  | nil =>
    have : col = [] := List.eq_nil_of_length_eq_zero hlen
    subst this
    rfl
  | cons row rest ih =>
    cases col with
    | nil => simp at hlen
    | cons o col2 =>
      have h1 : sumBoard (setColFixed (row :: rest) c (o :: col2) r0) =
          sumLine (row.set c (((o :: col2).getD 0 none).map
            fun t => { t with r := r0, c := c })) +
          sumBoard (setColFixed rest c col2 (r0 + 1)) := rfl
      have h2 : sumLine (getCol (row :: rest) c) =
          optVal (row.getD c none) + sumLine (getCol rest c) := rfl
      have h3 : sumBoard (row :: rest) = sumLine row + sumBoard rest := rfl
      have h4 : sumLine (o :: col2) = optVal o + sumLine col2 := rfl
      have hrow := sumLine_set row c
        (((o :: col2).getD 0 none).map fun t => { t with r := r0, c := c })
        (hc row (List.mem_cons_self _ _))
      rw [List.getD_cons_zero] at h1
      rw [List.getD_cons_zero, optVal_map_fix] at hrow
      have hih := ih col2 (r0 + 1) (by simpa using hlen)
        (fun rr hrr => hc rr (List.mem_cons_of_mem _ hrr))
      rw [h1, h2, h3, h4]
      omega

theorem setColFixed_getCol_id (b : Board) (c : Nat) (r0 : Nat)
    (h : ∀ i t, cellAt b i c = some t → t.r = r0 + i ∧ t.c = c) :
    setColFixed b c (getCol b c) r0 = b := by
  induction b generalizing r0 with
  | nil => rfl
  | cons row rest ih =>
    unfold setColFixed
    have hdrop : (getCol (row :: rest) c).drop 1 = getCol rest c := rfl
    have hhead : (getCol (row :: rest) c).getD 0 none = row.getD c none := rfl
    rw [hdrop, hhead]
    have htail : setColFixed rest c (getCol rest c) (r0 + 1) = rest := by
      apply ih
      intro i t ht
      have := h (i + 1) t ht
      refine ⟨by rw [this.1]; omega, this.2⟩
    rw [htail]
    cases hrow : row.getD c none with
    | none =>
      have : row.set c ((none : Option Tile).map fun t => { t with r := r0, c := c })
          = row.set c (row.getD c none) := by rw [hrow]; rfl
      rw [this, set_getD_self]
    | some t =>
      have hco := h 0 t (by unfold cellAt; rw [List.getD_cons_zero]; exact hrow)
      have h1 : t.r = r0 := by have := hco.1; omega
      have he : ({ t with r := r0, c := c } : Tile) = t :=
        tile_fix_eq t r0 c h1 hco.2
      have : row.set c ((some t).map fun u => { u with r := r0, c := c })
          = row.set c (row.getD c none) := by
        rw [hrow,
          show ((some t).map fun u => ({ u with r := r0, c := c } : Tile))
            = some ({ t with r := r0, c := c } : Tile) from rfl, he]
      rw [this, set_getD_self]

/-! ## The horizontal pass -/

theorem slideLine_not_moved_eq (l : List (Option Tile)) (d : Int)
    (h : (slideLine l d).moved = false) :
    slideLine l d =
      { line := l, locked := [], moved := false, gained := 0, merges := [],
        relocs := [] } := by
  unfold slideLine at h ⊢
  exact foldl_slideStep_not_moved d _ _ h

theorem rowsCoherent_tail (row : List (Option Tile)) (rows : Board) (r0 : Nat)
    (h : rowsCoherent (row :: rows) r0) : rowsCoherent rows (r0 + 1) := by
  intro i c t ht
  have := h (i + 1) c t (by simpa [cellAt, List.getD_cons_succ] using ht)
  exact ⟨by omega, this.2⟩

theorem rowsCoherent_head (row : List (Option Tile)) (rows : Board) (r0 : Nat)
    (h : rowsCoherent (row :: rows) r0) :
    ∀ i t, row.getD i none = some t → t.r = r0 ∧ t.c = i := by
  intro i t ht
  have := h 0 i t (by simpa [cellAt, List.getD_cons_zero] using ht)
  exact ⟨by omega, this.2⟩

theorem moveRows_board_length (d : Int) :
    ∀ (b : Board) (r0 : Nat), (moveRows b d r0).board.length = b.length
  | [], _ => rfl
  | row :: rows, r0 => by
    show (fixRow (slideLine row d).line r0 0 :: (moveRows rows d (r0 + 1)).board).length
      = (row :: rows).length
    simp [moveRows_board_length d rows (r0 + 1)]

theorem moveRows_rows_length (d : Int) (n : Nat) :
    ∀ (b : Board) (r0 : Nat), (∀ row ∈ b, row.length = n) →
      ∀ row2 ∈ (moveRows b d r0).board, row2.length = n
  | [], _, _, row2, hmem => by simp [moveRows] at hmem
  | row :: rows, r0, h, row2, hmem => by
    rcases hmem with _ | hmem2
    · rw [fixRow_length, slideLine_length]
      exact h row (List.mem_cons_self _ _)
    · exact moveRows_rows_length d n rows (r0 + 1)
        (fun rr hrr => h rr (List.mem_cons_of_mem _ hrr)) row2 (by assumption)

theorem moveRows_square (d : Int) (n : Nat) (b : Board) (r0 : Nat)
    (h : squareBoard b n) (hn : b.length = n) :
    squareBoard (moveRows b d r0).board n :=
  ⟨by rw [moveRows_board_length]; exact hn, moveRows_rows_length d n b r0 h.2⟩

theorem moveRows_sum (d : Int) :
    ∀ (b : Board) (r0 : Nat), sumBoard (moveRows b d r0).board = sumBoard b
  | [], _ => rfl
  | row :: rows, r0 => by
    show sumLine (fixRow (slideLine row d).line r0 0) +
        sumBoard (moveRows rows d (r0 + 1)).board = sumLine row + sumBoard rows
    rw [fixRow_sum, slideLine_sum, moveRows_sum d rows (r0 + 1)]

theorem moveRows_not_moved (d : Int) :
    ∀ (b : Board) (r0 : Nat), rowsCoherent b r0 →
      (moveRows b d r0).moved = false →
      (moveRows b d r0).board = b ∧ (moveRows b d r0).gained = 0
  | [], _, _, _ => ⟨rfl, rfl⟩
  | row :: rows, r0, hco, hm => by
    have hm2 : (slideLine row d).moved = false ∧
        (moveRows rows d (r0 + 1)).moved = false := by
      have : ((slideLine row d).moved || (moveRows rows d (r0 + 1)).moved) = false := hm
      exact Bool.or_eq_false_iff.mp this
    have hline := slideLine_not_moved_eq row d hm2.1
    have ihres := moveRows_not_moved d rows (r0 + 1) (rowsCoherent_tail row rows r0 hco)
      hm2.2
    constructor
    · show fixRow (slideLine row d).line r0 0 :: (moveRows rows d (r0 + 1)).board
        = row :: rows
      rw [hline, ihres.1]
      have hfix : fixRow row r0 0 = row := by
        apply fixRow_id_of_coherent
        intro i t ht
        have := rowsCoherent_head row rows r0 hco i t ht
        exact ⟨this.1, by omega⟩
      show fixRow row r0 0 :: rows = row :: rows
      rw [hfix]
    · show (slideLine row d).gained + (moveRows rows d (r0 + 1)).gained = 0
      rw [hline, ihres.2]

theorem moveRows_coherent (d : Int) :
    ∀ (b : Board) (r0 : Nat), rowsCoherent (moveRows b d r0).board r0
  | [], r0 => by
    intro i c t ht
    simp [moveRows, cellAt, List.getD] at ht
  | row :: rows, r0 => by
    intro i c t ht
    have hb : (moveRows (row :: rows) d r0).board =
        fixRow (slideLine row d).line r0 0 :: (moveRows rows d (r0 + 1)).board := rfl
    rw [hb] at ht
    cases i with
    | zero =>
      have ht2 : (fixRow (slideLine row d).line r0 0).getD c none = some t := by
        simpa [cellAt, List.getD_cons_zero] using ht
      rw [fixRow_getD] at ht2
      cases hcell : (slideLine row d).line.getD c none with
      | none => rw [hcell] at ht2; exact Option.noConfusion ht2
      | some u =>
        rw [hcell] at ht2
        have he : ({ u with r := r0, c := 0 + c } : Tile) = t := by
          injection ht2
        have h1 : t.r = r0 := by rw [← he]
        have h2 : t.c = 0 + c := by rw [← he]
        exact ⟨by omega, by omega⟩
    | succ i2 =>
      have ht2 : cellAt (moveRows rows d (r0 + 1)).board i2 c = some t := by
        simpa [cellAt, List.getD_cons_succ] using ht
      have := moveRows_coherent d rows (r0 + 1) i2 c t ht2
      exact ⟨by omega, this.2⟩

theorem moveRows_merges_nodup (d : Int) :
    ∀ (b : Board) (r0 : Nat),
      (moveRows b d r0).merges.Nodup ∧ ∀ p ∈ (moveRows b d r0).merges, r0 ≤ p.1
  | [], _ => ⟨List.nodup_nil, by simp [moveRows]⟩
  | row :: rows, r0 => by
    have ih := moveRows_merges_nodup d rows (r0 + 1)
    have hhead : ((slideLine row d).merges.map fun j => (r0, j)).Nodup := by
      apply List.Nodup.map
      · intro a b hab
        injection hab
      · exact slideLine_merges_nodup row d
    constructor
    · show ((slideLine row d).merges.map (fun j => (r0, j)) ++
        (moveRows rows d (r0 + 1)).merges).Nodup
      rw [List.nodup_append]
      refine ⟨hhead, ih.1, ?_⟩
      intro p hp hq
      rcases List.mem_map.mp hp with ⟨j, _, hj⟩
      have h1 : p.1 = r0 := by rw [← hj]
      have h2 : r0 + 1 ≤ p.1 := ih.2 p hq
      omega
    · intro p hp
      rcases List.mem_append.mp hp with hp | hp
      · rcases List.mem_map.mp hp with ⟨j, _, hj⟩
        rw [← hj]
      · have := ih.2 p hp
        omega

/-! ## The vertical pass -/

theorem moveColsStep_board (d : Int) (st : PassResult) (c : Nat) :
    (moveColsStep d st c).board =
      setColFixed st.board c (slideLine (getCol st.board c) d).line 0 := rfl

theorem foldl_moveCols_square (d : Int) (n : Nat) :
    ∀ (cs : List Nat) (st : PassResult), squareBoard st.board n →
      squareBoard ((cs.foldl (moveColsStep d) st).board) n
  | [], _, h => h
  | c :: cs, st, h => by
    rw [List.foldl_cons]
    exact foldl_moveCols_square d n cs _
      (squareBoard_setColFixed st.board n c _ 0 h)

theorem foldl_moveCols_sum (d : Int) (n : Nat) :
    ∀ (cs : List Nat) (st : PassResult), squareBoard st.board n →
      (∀ c ∈ cs, c < n) →
      sumBoard ((cs.foldl (moveColsStep d) st).board) = sumBoard st.board
  | [], _, _, _ => rfl
  | c :: cs, st, hsq, hcs => by
    rw [List.foldl_cons]
    have hcn : c < n := hcs c (List.mem_cons_self _ _)
    have hstep : sumBoard (moveColsStep d st c).board = sumBoard st.board := by
      rw [moveColsStep_board]
      have hset := setColFixed_sum st.board c (slideLine (getCol st.board c) d).line 0
        (by rw [slideLine_length, getCol_length])
        (fun row hrow => by rw [hsq.2 row hrow]; exact hcn)
      rw [slideLine_sum] at hset
      omega
    rw [foldl_moveCols_sum d n cs _
      (by rw [moveColsStep_board]; exact squareBoard_setColFixed st.board n c _ 0 hsq)
      (fun c2 hc2 => hcs c2 (List.mem_cons_of_mem _ hc2)), hstep]

theorem foldl_moveCols_moved_mono (d : Int) :
    ∀ (cs : List Nat) (st : PassResult), st.moved = true →
      ((cs.foldl (moveColsStep d) st).moved = true)
  | [], _, h => h
  | c :: cs, st, h => by
    rw [List.foldl_cons]
    exact foldl_moveCols_moved_mono d cs _ (by
      show (st.moved || _) = true
      rw [h, Bool.true_or])

theorem foldl_moveCols_not_moved (d : Int) :
    ∀ (cs : List Nat) (st : PassResult), rowsCoherent st.board 0 →
      ((cs.foldl (moveColsStep d) st).moved = false) →
      cs.foldl (moveColsStep d) st = st
  | [], _, _, _ => rfl
  | c :: cs, st, hco, hm => by
    rw [List.foldl_cons] at hm ⊢
    have hstep_moved : (moveColsStep d st c).moved = false := by
      by_contra hcon
      rw [foldl_moveCols_moved_mono d cs _ (Bool.of_not_eq_false hcon)] at hm
      exact Bool.noConfusion hm
    have hls : (slideLine (getCol st.board c) d).moved = false := by
      have : (st.moved || (slideLine (getCol st.board c) d).moved) = false :=
        hstep_moved
      exact (Bool.or_eq_false_iff.mp this).2
    have hstm : st.moved = false := by
      have : (st.moved || (slideLine (getCol st.board c) d).moved) = false :=
        hstep_moved
      exact (Bool.or_eq_false_iff.mp this).1
    have hline := slideLine_not_moved_eq _ d hls
    have hstep_eq : moveColsStep d st c = st := by
      show (⟨setColFixed st.board c (slideLine (getCol st.board c) d).line 0,
        st.moved || (slideLine (getCol st.board c) d).moved,
        st.gained + (slideLine (getCol st.board c) d).gained,
        st.merges ++ (slideLine (getCol st.board c) d).merges.map fun j => (j, c)⟩ :
          PassResult) = st
      rw [hline]
      have hid : setColFixed st.board c (getCol st.board c) 0 = st.board := by
        apply setColFixed_getCol_id
        intro i t ht
        have := hco i c t ht
        exact ⟨by omega, this.2⟩
      show (⟨setColFixed st.board c (getCol st.board c) 0, st.moved || false,
        st.gained + 0, st.merges ++ List.map (fun j => (j, c)) []⟩ : PassResult) = st
      rw [hid, Bool.or_false, Nat.add_zero]
      show (⟨st.board, st.moved, st.gained, st.merges ++ []⟩ : PassResult) = st
      rw [List.append_nil]
    rw [hstep_eq] at hm ⊢
    exact foldl_moveCols_not_moved d cs st hco hm

theorem cellAt_none_of_ge (b : Board) (i c : Nat) (h : b.length ≤ i) :
    cellAt b i c = none := by
  unfold cellAt
  rw [List.getD_eq_default _ _ h]
  rfl

theorem foldl_moveCols_coherent (d : Int) (n : Nat) :
    ∀ (cs : List Nat) (st : PassResult), squareBoard st.board n →
      cs.Nodup → (∀ c ∈ cs, c < n) →
      (∀ i c t, c ∈ cs →
        cellAt ((cs.foldl (moveColsStep d) st).board) i c = some t →
          t.r = i ∧ t.c = c) ∧
      (∀ i c, c ∉ cs →
        cellAt ((cs.foldl (moveColsStep d) st).board) i c = cellAt st.board i c)
  | [], st, _, _, _ => ⟨fun i c t hc => absurd hc (List.not_mem_nil c), fun _ _ _ => rfl⟩
  | c :: cs, st, hsq, hnd, hbound => by
    rw [List.foldl_cons]
    have hsq2 : squareBoard (moveColsStep d st c).board n := by
      rw [moveColsStep_board]
      exact squareBoard_setColFixed st.board n c _ 0 hsq
    have hnd2 := (List.nodup_cons.mp hnd).2
    have hcnotin := (List.nodup_cons.mp hnd).1
    have ih := foldl_moveCols_coherent d n cs (moveColsStep d st c) hsq2 hnd2
      (fun c2 hc2 => hbound c2 (List.mem_cons_of_mem _ hc2))
    constructor
    · intro i c2 t hc2 ht
      rcases List.mem_cons.mp hc2 with he | hc2m
      · -- c2 = c, not in the remaining columns: untouched after this step
        subst he
        rw [ih.2 i c2 hcnotin] at ht
        rw [moveColsStep_board] at ht
        by_cases hi : i < st.board.length
        · rw [setColFixed_cellAt_eq st.board c2 _ 0 i hi
            (by rw [hsq.2 _ (getD_mem_of_lt st.board i [] hi)]
                exact hbound c2 (List.mem_cons_self _ _))] at ht
          cases hcell : (slideLine (getCol st.board c2) d).line.getD i none with
          | none => rw [hcell] at ht; exact Option.noConfusion ht
          | some u =>
            rw [hcell] at ht
            have he2 : ({ u with r := 0 + i, c := c2 } : Tile) = t := by injection ht
            have h1 : t.r = 0 + i := by rw [← he2]
            have h2 : t.c = c2 := by rw [← he2]
            exact ⟨by omega, h2⟩
        · rw [cellAt_none_of_ge _ i c2 (by rw [setColFixed_length]; omega)] at ht
          exact Option.noConfusion ht
      · exact ih.1 i c2 t hc2m ht
    · intro i c2 hc2
      have hc2c : c2 ≠ c := fun he => hc2 (he ▸ List.mem_cons_self _ _)
      have hc2cs : c2 ∉ cs := fun hm => hc2 (List.mem_cons_of_mem _ hm)
      rw [ih.2 i c2 hc2cs, moveColsStep_board,
        setColFixed_cellAt_ne st.board c _ 0 i c2 hc2c]

/-! ## Coordinates of collected tiles -/

theorem filterMap_row_facts (r0 n : Nat) :
    ∀ (l : List (Option Tile)) (c0 : Nat),
      (∀ i t, l.getD i none = some t → t.r = r0 ∧ t.c = c0 + i) →
      ((l.filterMap id).map fun t => (t.r, t.c)).Nodup ∧
      ∀ t ∈ l.filterMap id, t.r = r0 ∧ c0 ≤ t.c ∧ t.c < c0 + l.length
  | [], _, _ => ⟨by simp, by simp⟩
  | o :: rest, c0, h => by
    have ih := filterMap_row_facts r0 n rest (c0 + 1) (fun i t ht => by
      have := h (i + 1) t (by rwa [List.getD_cons_succ])
      exact ⟨this.1, by omega⟩)
    cases o with
    | none =>
      show ((List.filterMap id (none :: rest)).map fun t => (t.r, t.c)).Nodup ∧ _
      have hfm : List.filterMap id (none :: rest) = List.filterMap id rest := rfl
      rw [hfm]
      refine ⟨ih.1, ?_⟩
      intro t ht
      have := ih.2 t ht
      exact ⟨this.1, by omega, by
        have : t.c < c0 + 1 + rest.length := this.2.2
        simpa [List.length_cons] using (by omega : t.c < c0 + (rest.length + 1))⟩
    | some u =>
      have hu := h 0 u (by rw [List.getD_cons_zero])
      show ((List.filterMap id (some u :: rest)).map fun t => (t.r, t.c)).Nodup ∧ _
      have hfm : List.filterMap id (some u :: rest) = u :: List.filterMap id rest := rfl
      rw [hfm]
      constructor
      · rw [List.map_cons, List.nodup_cons]
        refine ⟨?_, ih.1⟩
        intro hm
        rcases List.mem_map.mp hm with ⟨s, hsm, hse⟩
        have hsc : c0 + 1 ≤ s.c := (ih.2 s hsm).2.1
        have : s.c = u.c := by
          rw [Prod.mk.injEq] at hse
          exact hse.2
        omega
      · intro t ht
        rcases List.mem_cons.mp ht with he | hm
        · subst he
          exact ⟨hu.1, by omega, by simp [List.length_cons]; omega⟩
        · have := ih.2 t hm
          exact ⟨this.1, by omega, by simp [List.length_cons]; omega⟩

theorem collect_facts (n : Nat) :
    ∀ (b : Board) (r0 : Nat),
      (∀ i c t, cellAt b i c = some t → t.r = r0 + i ∧ t.c = c) →
      (∀ row ∈ b, row.length = n) →
      ((collect b).map fun t => (t.r, t.c)).Nodup ∧
      ∀ t ∈ collect b, r0 ≤ t.r ∧ t.r < r0 + b.length ∧ t.c < n
  | [], _, _, _ => ⟨by simp [collect], by simp [collect]⟩
  | row :: rest, r0, h, hrows => by
    have hrow := filterMap_row_facts r0 n row 0 (fun i t ht => by
      have := h 0 i t (by simpa [cellAt, List.getD_cons_zero] using ht)
      exact ⟨by omega, by omega⟩)
    have ih := collect_facts n rest (r0 + 1) (fun i c t ht => by
      have := h (i + 1) c t (by simpa [cellAt, List.getD_cons_succ] using ht)
      exact ⟨by omega, this.2⟩) (fun rr hrr => hrows rr (List.mem_cons_of_mem _ hrr))
    rw [collect_cons]
    constructor
    · rw [List.map_append, List.nodup_append]
      refine ⟨hrow.1, ih.1, ?_⟩
      intro p hp hq
      rcases List.mem_map.mp hp with ⟨t, htm, hte⟩
      rcases List.mem_map.mp hq with ⟨s, hsm, hse⟩
      have h1 : t.r = r0 := (hrow.2 t htm).1
      have h2 : r0 + 1 ≤ s.r := (ih.2 s hsm).1
      have heq := hte.trans hse.symm
      rw [Prod.mk.injEq] at heq
      omega
    · intro t ht
      rcases List.mem_append.mp ht with hm | hm
      · have hf := hrow.2 t hm
        have hrl : row.length = n := hrows row (List.mem_cons_self _ _)
        exact ⟨by omega, by simp [List.length_cons]; omega, by omega⟩
      · have hf := ih.2 t hm
        exact ⟨by omega, by simp [List.length_cons]; omega, hf.2.2⟩

theorem cellAt_some_bounds (b : Board) (n i c : Nat) (t : Tile)
    (hsq : squareBoard b n) (h : cellAt b i c = some t) : i < n ∧ c < n := by
  by_cases hi : i < b.length
  · refine ⟨hsq.1 ▸ hi, ?_⟩
    by_contra hc
    push_neg at hc
    unfold cellAt at h
    rw [List.getD_eq_default] at h
    · exact Option.noConfusion h
    · rw [hsq.2 _ (getD_mem_of_lt b i [] hi)]
      omega
  · rw [cellAt_none_of_ge b i c (by omega)] at h
    exact Option.noConfusion h

/-! ## The board mover -/

theorem move_L (tiles : List Tile) (n : Nat) :
    move tiles n Dir.L =
      ⟨collect (moveRows (toBoard tiles n) (-1) 0).board,
        (moveRows (toBoard tiles n) (-1) 0).moved,
        (moveRows (toBoard tiles n) (-1) 0).gained,
        (moveRows (toBoard tiles n) (-1) 0).merges⟩ := rfl

theorem move_R (tiles : List Tile) (n : Nat) :
    move tiles n Dir.R =
      ⟨collect (moveRows (toBoard tiles n) 1 0).board,
        (moveRows (toBoard tiles n) 1 0).moved,
        (moveRows (toBoard tiles n) 1 0).gained,
        (moveRows (toBoard tiles n) 1 0).merges⟩ := rfl

theorem move_U (tiles : List Tile) (n : Nat) :
    move tiles n Dir.U =
      ⟨collect (((List.range n).foldl (moveColsStep (-1))
          ⟨toBoard tiles n, false, 0, []⟩).board),
        (((List.range n).foldl (moveColsStep (-1))
          ⟨toBoard tiles n, false, 0, []⟩).moved),
        (((List.range n).foldl (moveColsStep (-1))
          ⟨toBoard tiles n, false, 0, []⟩).gained),
        (((List.range n).foldl (moveColsStep (-1))
          ⟨toBoard tiles n, false, 0, []⟩).merges)⟩ := rfl

theorem move_D (tiles : List Tile) (n : Nat) :
    move tiles n Dir.D =
      ⟨collect (((List.range n).foldl (moveColsStep 1)
          ⟨toBoard tiles n, false, 0, []⟩).board),
        (((List.range n).foldl (moveColsStep 1)
          ⟨toBoard tiles n, false, 0, []⟩).moved),
        (((List.range n).foldl (moveColsStep 1)
          ⟨toBoard tiles n, false, 0, []⟩).gained),
        (((List.range n).foldl (moveColsStep 1)
          ⟨toBoard tiles n, false, 0, []⟩).merges)⟩ := rfl

theorem sumTiles_perm (l1 l2 : List Tile) (h : l1.Perm l2) :
    sumTiles l1 = sumTiles l2 :=
  (h.map Tile.value).sum_eq

/-- Value conservation for a horizontal move. -/
theorem move_sum_rows (tiles : List Tile) (n : Nat) (d : Int)
    (h : wellFormed tiles n) :
    sumTiles (collect (moveRows (toBoard tiles n) d 0).board) = sumTiles tiles := by
  rw [sumTiles_collect, moveRows_sum, ← sumTiles_collect]
  exact sumTiles_perm _ _ (collect_toBoard_perm tiles n h)

/-- Value conservation for a vertical move. -/
theorem move_sum_cols (tiles : List Tile) (n : Nat) (d : Int)
    (h : wellFormed tiles n) :
    sumTiles (collect (((List.range n).foldl (moveColsStep d)
      ⟨toBoard tiles n, false, 0, []⟩).board)) = sumTiles tiles := by
  rw [sumTiles_collect,
    foldl_moveCols_sum d n (List.range n) ⟨toBoard tiles n, false, 0, []⟩
      (squareBoard_toBoard tiles n) (fun c hc => List.mem_range.mp hc),
    ← sumTiles_collect]
  exact sumTiles_perm _ _ (collect_toBoard_perm tiles n h)

/-- Value conservation for `move`, all four directions. -/
theorem move_sum (tiles : List Tile) (n : Nat) (dir : Dir)
    (h : wellFormed tiles n) :
    sumTiles (move tiles n dir).tiles = sumTiles tiles := by
  cases dir
  · rw [move_L]; exact move_sum_rows tiles n (-1) h
  · rw [move_R]; exact move_sum_rows tiles n 1 h
  · rw [move_U]; exact move_sum_cols tiles n (-1) h
  · rw [move_D]; exact move_sum_cols tiles n 1 h

/-- A rejected move returns the input tile set (as a multiset) and a zero
score delta. -/
theorem move_rejected (tiles : List Tile) (n : Nat) (dir : Dir)
    (h : wellFormed tiles n) (hm : (move tiles n dir).moved = false) :
    ((move tiles n dir).tiles).Perm tiles ∧ (move tiles n dir).gained = 0 := by
  have hco : rowsCoherent (toBoard tiles n) 0 := rowsCoherent_toBoard tiles n
  cases dir
  case L | R =>
    first
      | rw [move_L] at hm ⊢
      | rw [move_R] at hm ⊢
    have := moveRows_not_moved _ (toBoard tiles n) 0 hco hm
    refine ⟨?_, this.2⟩
    rw [this.1]
    exact collect_toBoard_perm tiles n h
  case U | D =>
    first
      | rw [move_U] at hm ⊢
      | rw [move_D] at hm ⊢
    have hfold := foldl_moveCols_not_moved _ (List.range n)
      ⟨toBoard tiles n, false, 0, []⟩ hco hm
    rw [hfold]
    exact ⟨collect_toBoard_perm tiles n h, rfl⟩

theorem move_wf_rows (tiles : List Tile) (n : Nat) (d : Int) :
    wellFormed (collect (moveRows (toBoard tiles n) d 0).board) n := by
  have hsq := squareBoard_toBoard tiles n
  have hcoh := moveRows_coherent d (toBoard tiles n) 0
  have hrows := moveRows_rows_length d n (toBoard tiles n) 0 hsq.2
  have hfacts := collect_facts n (moveRows (toBoard tiles n) d 0).board 0
    (fun i c t ht => hcoh i c t ht) hrows
  refine ⟨hfacts.1, ?_⟩
  intro t ht
  have hf := hfacts.2 t ht
  have hlen : (moveRows (toBoard tiles n) d 0).board.length = n := by
    rw [moveRows_board_length]
    exact hsq.1
  exact ⟨by omega, hf.2.2⟩

theorem move_wf_cols (tiles : List Tile) (n : Nat) (d : Int) :
    wellFormed (collect (((List.range n).foldl (moveColsStep d)
      ⟨toBoard tiles n, false, 0, []⟩).board)) n := by
  have hsq := squareBoard_toBoard tiles n
  have hsqf := foldl_moveCols_square d n (List.range n)
    ⟨toBoard tiles n, false, 0, []⟩ hsq
  have hcohf := foldl_moveCols_coherent d n (List.range n)
    ⟨toBoard tiles n, false, 0, []⟩ hsq (List.nodup_range n)
    (fun c hc => List.mem_range.mp hc)
  have hcoh : ∀ i c t,
      cellAt (((List.range n).foldl (moveColsStep d)
        ⟨toBoard tiles n, false, 0, []⟩).board) i c = some t →
        t.r = 0 + i ∧ t.c = c := by
    intro i c t ht
    have hb := cellAt_some_bounds _ n i c t hsqf ht
    have := hcohf.1 i c t (List.mem_range.mpr hb.2) ht
    exact ⟨by omega, this.2⟩
  have hfacts := collect_facts n _ 0 hcoh hsqf.2
  refine ⟨hfacts.1, ?_⟩
  intro t ht
  have hf := hfacts.2 t ht
  have hlen := hsqf.1
  exact ⟨by omega, hf.2.2⟩

/-- The tile set returned by `move` is well formed: distinct cells, in-range
coordinates. -/
theorem move_wellFormed_out (tiles : List Tile) (n : Nat) (dir : Dir) :
    wellFormed (move tiles n dir).tiles n := by
  cases dir
  · rw [move_L]; exact move_wf_rows tiles n (-1)
  · rw [move_R]; exact move_wf_rows tiles n 1
  · rw [move_U]; exact move_wf_cols tiles n (-1)
  · rw [move_D]; exact move_wf_cols tiles n 1

/-! ## The spawner -/

theorem mem_freeCells (b : Board) (n r c : Nat) :
    (r, c) ∈ freeCells b n ↔ r < n ∧ c < n ∧ cellAt b r c = none := by
  unfold freeCells
  rw [List.mem_flatMap]
  constructor
  · rintro ⟨r2, hr2, hmem⟩
    rw [List.mem_filterMap] at hmem
    rcases hmem with ⟨c2, hc2, heq⟩
    by_cases hcell : cellAt b r2 c2 = none
    · rw [if_pos hcell] at heq
      have hp : (r2, c2) = (r, c) := by injection heq
      rw [Prod.mk.injEq] at hp
      obtain ⟨he1, he2⟩ := hp
      subst he1
      subst he2
      exact ⟨List.mem_range.mp hr2, List.mem_range.mp hc2, hcell⟩
    · rw [if_neg hcell] at heq
      exact Option.noConfusion heq
  · rintro ⟨hr, hc, hcell⟩
    exact ⟨r, List.mem_range.mpr hr,
      List.mem_filterMap.mpr ⟨c, List.mem_range.mpr hc, by rw [if_pos hcell]⟩⟩

theorem freeCells_nil_of_full (b : Board) (n : Nat)
    (h : ∀ r c, r < n → c < n → cellAt b r c ≠ none) : freeCells b n = [] := by
  rw [List.eq_nil_iff_forall_not_mem]
  intro p hp
  obtain ⟨r, c⟩ := p
  rw [mem_freeCells] at hp
  exact h r c hp.1 hp.2.1 hp.2.2

/-- `spawn` on a full board is a no-op returning the input. -/
theorem spawn_full (tiles : List Tile) (n k : Nat) (four : Bool) (newId : Nat)
    (h : ∀ r c, r < n → c < n → cellAt (toBoard tiles n) r c ≠ none) :
    spawn tiles n k four newId = tiles := by
  unfold spawn
  rw [freeCells_nil_of_full _ _ h]
  simp

/-- `spawn` on a board with an empty cell appends exactly one tile, of value
2 or 4, with the requested id, `justMerged` false, on a previously empty
in-range cell. -/
theorem spawn_step (tiles : List Tile) (n k : Nat) (four : Bool) (newId : Nat)
    (h : ∃ r c, r < n ∧ c < n ∧ cellAt (toBoard tiles n) r c = none) :
    ∃ t : Tile,
      spawn tiles n k four newId = tiles ++ [t] ∧
      (t.value = 2 ∨ t.value = 4) ∧ t.bump = false ∧ t.id = newId ∧
      t.r < n ∧ t.c < n ∧ cellAt (toBoard tiles n) t.r t.c = none := by
  obtain ⟨r, c, hr, hc, hcell⟩ := h
  have hne : freeCells (toBoard tiles n) n ≠ [] := by
    intro hnil
    have hmm := (mem_freeCells (toBoard tiles n) n r c).mpr ⟨hr, hc, hcell⟩
    rw [hnil] at hmm
    exact List.not_mem_nil _ hmm
  have hlen : (freeCells (toBoard tiles n) n).length ≠ 0 := by
    intro h0
    exact hne (List.eq_nil_of_length_eq_zero h0)
  have hmod : k % (freeCells (toBoard tiles n) n).length <
      (freeCells (toBoard tiles n) n).length :=
    Nat.mod_lt k (by omega)
  have hmem : (freeCells (toBoard tiles n) n).getD
      (k % (freeCells (toBoard tiles n) n).length) (0, 0) ∈
      freeCells (toBoard tiles n) n := getD_mem_of_lt _ _ _ hmod
  have hchar := (mem_freeCells (toBoard tiles n) n
    ((freeCells (toBoard tiles n) n).getD
      (k % (freeCells (toBoard tiles n) n).length) (0, 0)).1
    ((freeCells (toBoard tiles n) n).getD
      (k % (freeCells (toBoard tiles n) n).length) (0, 0)).2).mp hmem
  refine ⟨⟨newId,
      ((freeCells (toBoard tiles n) n).getD
        (k % (freeCells (toBoard tiles n) n).length) (0, 0)).1,
      ((freeCells (toBoard tiles n) n).getD
        (k % (freeCells (toBoard tiles n) n).length) (0, 0)).2,
      if four then 4 else 2, false⟩, ?_, ?_, rfl, rfl,
      hchar.1, hchar.2.1, hchar.2.2⟩
  · unfold spawn
    rw [if_neg hlen]
  · cases four
    · exact Or.inl rfl
    · exact Or.inr rfl

/-! ## The terminal detector -/


theorem anyMovesLeft_false_iff (board : Board) :
    anyMovesLeft board = false ↔ boardFull board ∧ noAdjacentEqualPairs board := by
  unfold anyMovesLeft boardFull noAdjacentEqualPairs
  rw [List.any_eq_false]
  constructor
  · intro h
    refine ⟨?_, ?_, ?_⟩
    · intro r c hr hc hnone
      have h2 := h r (List.mem_range.mpr hr)
      rw [Bool.not_eq_true, List.any_eq_false] at h2
      have h3 := h2 c (List.mem_range.mpr hc)
      rw [Bool.not_eq_true] at h3
      rw [hnone] at h3
      exact Bool.noConfusion h3
    · intro r c u w hr1 hc hcu hcw hval
      have h2 := h r (List.mem_range.mpr (by omega))
      rw [Bool.not_eq_true, List.any_eq_false] at h2
      have h3 := h2 c (List.mem_range.mpr hc)
      rw [Bool.not_eq_true] at h3
      rw [hcu, hcw] at h3
      have h4 := (Bool.or_eq_false_iff.mp h3).1
      rcases Bool.and_eq_false_iff.mp h4 with h5 | h5
      · rw [decide_eq_false_iff_not] at h5
        exact h5 hr1
      · rw [beq_eq_false_iff_ne] at h5
        exact h5 hval.symm
    · intro r c u w hr hc1 hcu hcw hval
      have h2 := h r (List.mem_range.mpr hr)
      rw [Bool.not_eq_true, List.any_eq_false] at h2
      have h3 := h2 c (List.mem_range.mpr (by omega))
      rw [Bool.not_eq_true] at h3
      rw [hcu, hcw] at h3
      have h4 := (Bool.or_eq_false_iff.mp h3).2
      rcases Bool.and_eq_false_iff.mp h4 with h5 | h5
      · rw [decide_eq_false_iff_not] at h5
        exact h5 hc1
      · rw [beq_eq_false_iff_ne] at h5
        exact h5 hval.symm
  · rintro ⟨hfull, hvert, hhoriz⟩
    intro r hr
    rw [Bool.not_eq_true, List.any_eq_false]
    intro c hc
    rw [List.mem_range] at hr hc
    rw [Bool.not_eq_true]
    cases hcell : cellAt board r c with
    | none => exact absurd hcell (hfull r c hr hc)
    | some t =>
      rw [Bool.or_eq_false_iff]
      constructor
      · cases hr1 : decide (r + 1 < board.length) with
        | false => rw [Bool.false_and]
        | true =>
          rw [Bool.true_and]
          cases hcell2 : cellAt board (r + 1) c with
          | none => rfl
          | some w =>
            rw [beq_eq_false_iff_ne]
            intro he
            exact hvert r c t w (of_decide_eq_true hr1) hc hcell hcell2 he.symm
      · cases hc1 : decide (c + 1 < board.length) with
        | false => rw [Bool.false_and]
        | true =>
          rw [Bool.true_and]
          cases hcell2 : cellAt board r (c + 1) with
          | none => rfl
          | some w =>
            rw [beq_eq_false_iff_ne]
            intro he
            exact hhoriz r c t w hr (of_decide_eq_true hc1) hcell hcell2 he.symm

/-! ## Line reducer edge cases -/

theorem foldl_slideStep_skips (d : Int) :
    ∀ (is : List Nat) (st : LineState),
      (∀ i ∈ is, st.line.getD i none = none) →
      is.foldl (slideStep d) st = st
  | [], _, _ => rfl
  | i :: rest, st, h => by
    rw [List.foldl_cons, slideStep_skip d st i (h i (List.mem_cons_self _ _))]
    exact foldl_slideStep_skips d rest st
      (fun j hj => h j (List.mem_cons_of_mem _ hj))

/-- Reducing a line with no tiles is a no-op. -/
theorem slideLine_empty_line (n : Nat) (d : Int) :
    slideLine (List.replicate n none) d =
      { line := List.replicate n none, locked := [], moved := false,
        gained := 0, merges := [], relocs := [] } := by
  unfold slideLine
  apply foldl_slideStep_skips
  intro i _
  show (List.replicate n (none : Option Tile)).getD i none = none
  rw [getD_replicate]
  split <;> rfl

/-- Reducing a fully packed line with no adjacent equal pair is a no-op. -/
theorem slideLine_packed (l : List (Option Tile)) (d : Int)
    (hd : d = -1 ∨ d = 1)
    (hfull : ∀ i, i < l.length → l.getD i none ≠ none)
    (hadj : ∀ i u w, i + 1 < l.length → l.getD i none = some u →
      l.getD (i + 1) none = some w → u.value ≠ w.value) :
    slideLine l d =
      { line := l, locked := [], moved := false, gained := 0, merges := [],
        relocs := [] } := by
  unfold slideLine
  have hstep : ∀ i, i < l.length →
      slideStep d (⟨l, [], false, 0, [], []⟩ : LineState) i =
      (⟨l, [], false, 0, [], []⟩ : LineState) := by
    intro i hi
    cases hcell : l.getD i none with
    | none => exact slideStep_skip d _ i hcell
    | some t =>
      have hscan : scanDest l [] t.value d l.length i = i := by
        obtain ⟨m, hm⟩ : ∃ m, l.length = m + 1 := ⟨l.length - 1, by omega⟩
        rw [hm, scanDest_succ]
        rcases hd with hd | hd
        · subst hd
          cases i with
          | zero => rw [if_pos (Or.inl (by omega))]
          | succ i2 =>
            have hedge : ¬(((i2 + 1 : Nat) : Int) + (-1) < 0 ∨
                (l.length : Int) ≤ ((i2 + 1 : Nat) : Int) + (-1)) := by
              push_neg
              constructor <;> [omega; omega]
            rw [if_neg hedge]
            have hj : (((i2 + 1 : Nat) : Int) + (-1)).toNat = i2 := by omega
            rw [hj]
            cases hcell2 : l.getD i2 none with
            | none => exact absurd hcell2 (hfull i2 (by omega))
            | some u =>
              dsimp only
              have hne := hadj i2 u t (by omega) hcell2 hcell
              rw [if_neg (by
                rintro ⟨-, hvv⟩
                exact hne hvv)]
        · subst hd
          by_cases htop : i + 1 < l.length
          · have hedge : ¬(((i : Nat) : Int) + 1 < 0 ∨
                (l.length : Int) ≤ ((i : Nat) : Int) + 1) := by
              push_neg
              constructor <;> [omega; omega]
            rw [if_neg hedge]
            have hj : (((i : Nat) : Int) + 1).toNat = i + 1 := by omega
            rw [hj]
            cases hcell2 : l.getD (i + 1) none with
            | none => exact absurd hcell2 (hfull (i + 1) htop)
            | some u =>
              dsimp only
              have hne := hadj i t u htop hcell hcell2
              rw [if_neg (by
                rintro ⟨-, hvv⟩
                exact hne hvv.symm)]
          · rw [if_pos (Or.inr (by omega))]
      unfold slideStep
      rw [hcell]
      dsimp only
      rw [if_pos hscan]
  have hfold : ∀ (is : List Nat),
      (∀ i ∈ is, i < l.length) →
      is.foldl (slideStep d) (⟨l, [], false, 0, [], []⟩ : LineState) =
      (⟨l, [], false, 0, [], []⟩ : LineState) := by
    intro is
    induction is with
    | nil => intro _; rfl
    | cons i rest ih =>
      intro hmem
      rw [List.foldl_cons, hstep i (hmem i (List.mem_cons_self _ _))]
      exact ih (fun j hj => hmem j (List.mem_cons_of_mem _ hj))
  apply hfold
  intro i hi
  split at hi
  · rw [List.mem_reverse, List.mem_range] at hi; exact hi
  · rw [List.mem_range] at hi; exact hi

/-! ## Merge destination cells of a whole move -/

theorem foldl_moveCols_merges_nodup (d : Int) :
    ∀ (cs : List Nat) (st : PassResult), cs.Nodup →
      st.merges.Nodup → (∀ p ∈ st.merges, p.2 ∉ cs) →
      ((cs.foldl (moveColsStep d) st).merges).Nodup
  | [], _, _, h, _ => h
  | c :: cs, st, hnd, hmn, hdisj => by
    rw [List.foldl_cons]
    apply foldl_moveCols_merges_nodup d cs _ (List.nodup_cons.mp hnd).2
    · show (st.merges ++
        ((slideLine (getCol st.board c) d).merges.map fun j => (j, c))).Nodup
      rw [List.nodup_append]
      refine ⟨hmn, ?_, ?_⟩
      · apply List.Nodup.map
        · intro a b hab
          injection hab with h1 h2
        · exact slideLine_merges_nodup _ d
      · intro p hp hq
        rcases List.mem_map.mp hq with ⟨j, _, hj⟩
        have h2 : p.2 = c := by rw [← hj]
        exact (hdisj p hp) (h2 ▸ List.mem_cons_self _ _)
    · intro p hp
      rcases List.mem_append.mp hp with hp | hp
      · exact fun hm => (hdisj p hp) (List.mem_cons_of_mem _ hm)
      · rcases List.mem_map.mp hp with ⟨j, _, hj⟩
        have h2 : p.2 = c := by rw [← hj]
        rw [h2]
        exact (List.nodup_cons.mp hnd).1

/-- Within one `move` call, no board cell is the destination of more than
one merge. -/
theorem move_merges_nodup (tiles : List Tile) (n : Nat) (dir : Dir) :
    ((move tiles n dir).merges).Nodup := by
  cases dir
  · rw [move_L]; exact (moveRows_merges_nodup (-1) (toBoard tiles n) 0).1
  · rw [move_R]; exact (moveRows_merges_nodup 1 (toBoard tiles n) 0).1
  · rw [move_U]
    exact foldl_moveCols_merges_nodup (-1) (List.range n) _ (List.nodup_range n)
      List.nodup_nil (by simp)
  · rw [move_D]
    exact foldl_moveCols_merges_nodup 1 (List.range n) _ (List.nodup_range n)
      List.nodup_nil (by simp)

/-! ## Duplicate occupancy is resolved silently -/

/-- With two tiles on the same in-range cell, `toBoard` keeps only the tile
that comes later in the list; nothing signals the violation. -/
theorem toBoard_pair_overwrite (n : Nat) (t1 t2 : Tile)
    (hr : t1.r < n) (hc : t1.c < n) (her : t2.r = t1.r) (hec : t2.c = t1.c) :
    cellAt (toBoard [t1, t2] n) t1.r t1.c = some t2 := by
  show cellAt (setCell (setCell (emptyBoard n) t1.r t1.c (some t1))
    t2.r t2.c (some t2)) t1.r t1.c = some t2
  rw [her, hec, cellAt_setCell]
  have hsq := squareBoard_setCell (emptyBoard n) n t1.r t1.c (some t1)
    (squareBoard_empty n)
  have hlen : (setCell (emptyBoard n) t1.r t1.c (some t1)).length = n := hsq.1
  have hrow : ((setCell (emptyBoard n) t1.r t1.c (some t1)).getD t1.r []).length
      = n := hsq.2 _ (getD_mem_of_lt _ t1.r [] (by omega))
  rw [if_pos ⟨rfl, by omega, rfl, by omega⟩]

/-! ## Looking a well-formed tile set back up on its board -/

theorem cellAt_foldl_untouched :
    ∀ (ts : List Tile) (b : Board) (r c : Nat),
      (∀ u ∈ ts, ¬(u.r = r ∧ u.c = c)) →
      cellAt (ts.foldl (fun b t => setCell b t.r t.c (some t)) b) r c =
        cellAt b r c
  | [], _, _, _, _ => rfl
  | t :: ts, b, r, c, h => by
    rw [List.foldl_cons,
      cellAt_foldl_untouched ts _ r c (fun u hu => h u (List.mem_cons_of_mem _ hu)),
      cellAt_setCell]
    rw [if_neg (by
      rintro ⟨h1, -, h3, -⟩
      exact h t (List.mem_cons_self _ _) ⟨h1, h3⟩)]

/-- Every tile of a well-formed tile set occupies exactly the cell named by
its stored coordinates on the board built from the set. -/
theorem toBoard_lookup_self (tiles : List Tile) (n : Nat)
    (h : wellFormed tiles n) :
    ∀ t ∈ tiles, cellAt (toBoard tiles n) t.r t.c = some t := by
  unfold toBoard
  suffices hgen : ∀ (ts : List Tile) (b : Board), squareBoard b n →
      (ts.map fun t => (t.r, t.c)).Nodup → (∀ t ∈ ts, t.r < n ∧ t.c < n) →
      ∀ t ∈ ts, cellAt (ts.foldl (fun b t => setCell b t.r t.c (some t)) b)
        t.r t.c = some t by
    exact hgen tiles _ (squareBoard_empty n) h.1 h.2
  intro ts
  induction ts with
  | nil =>
    intro b _ _ _ t ht
    exact absurd ht (List.not_mem_nil t)
  | cons t0 ts ih =>
    intro b hsq hnd hin t ht
    rw [List.foldl_cons]
    rcases List.mem_cons.mp ht with he | hm
    · subst he
      rw [cellAt_foldl_untouched ts _ t.r t.c (by
        intro u hu hco
        apply (List.nodup_cons.mp hnd).1
        rw [List.mem_map]
        exact ⟨u, hu, by rw [hco.1, hco.2]⟩)]
      have hrb : t.r < b.length := by
        rw [hsq.1]
        exact (hin t (List.mem_cons_self _ _)).1
      have hcb : t.c < (b.getD t.r []).length := by
        rw [hsq.2 _ (getD_mem_of_lt b t.r [] hrb)]
        exact (hin t (List.mem_cons_self _ _)).2
      rw [cellAt_setCell, if_pos ⟨rfl, hrb, rfl, hcb⟩]
    · exact ih (setCell b t0.r t0.c (some t0))
        (squareBoard_setCell b n t0.r t0.c (some t0) hsq)
        (List.nodup_cons.mp hnd).2
        (fun u hu => hin u (List.mem_cons_of_mem _ hu)) t hm

/-! ## Scan trajectories over empty stretches -/

theorem scanDest_step_empty (line : List (Option Tile)) (locked : List Nat)
    (v : Nat) (d : Int) (fuel ni : Nat)
    (hin : ¬((ni : Int) + d < 0 ∨ (line.length : Int) ≤ (ni : Int) + d))
    (hcell : line.getD (((ni : Int) + d).toNat) none = none) :
    scanDest line locked v d (fuel + 1) ni =
      scanDest line locked v d fuel (((ni : Int) + d).toNat) := by
  rw [scanDest_succ, if_neg hin, hcell]

theorem scanDest_down_empties (line : List (Option Tile)) (locked : List Nat)
    (v : Nat) :
    ∀ (k m fuel : Nat), k ≤ fuel → m + k ≤ line.length →
      (∀ j, m ≤ j → j < m + k → line.getD j none = none) →
      scanDest line locked v (-1) fuel (m + k) =
        scanDest line locked v (-1) (fuel - k) m
  | 0, m, fuel, _, _, _ => by simp
  | k + 1, m, fuel, hk, hlen, hemp => by
    obtain ⟨f, hf⟩ : ∃ f, fuel = f + 1 := ⟨fuel - 1, by omega⟩
    subst hf
    rw [show m + (k + 1) = (m + k) + 1 from by omega]
    have hin : ¬(((m + k + 1 : Nat) : Int) + (-1) < 0 ∨
        (line.length : Int) ≤ ((m + k + 1 : Nat) : Int) + (-1)) := by
      push_neg
      constructor <;> omega
    have hj : ((((m + k + 1 : Nat) : Int) + (-1)).toNat) = m + k := by omega
    rw [scanDest_step_empty line locked v (-1) f (m + k + 1) hin
      (by rw [hj]; exact hemp (m + k) (by omega) (by omega)), hj]
    have harith : f + 1 - (k + 1) = f - k := by omega
    rw [harith]
    exact scanDest_down_empties line locked v k m f (by omega) (by omega)
      (fun j h1 h2 => hemp j h1 (by omega))

theorem scanDest_at_zero (line : List (Option Tile)) (locked : List Nat)
    (v : Nat) (fuel : Nat) :
    scanDest line locked v (-1) fuel 0 = 0 := by
  cases fuel with
  | zero => rfl
  | succ f => rw [scanDest_succ, if_pos (Or.inl (by omega))]

theorem scanDest_blocker_neg (line : List (Option Tile)) (locked : List Nat)
    (v : Nat) (fuel m : Nat) (u : Tile) (hm : 1 ≤ m) (hlen : m ≤ line.length)
    (hcell : line.getD (m - 1) none = some u) :
    scanDest line locked v (-1) (fuel + 1) m =
      if (m - 1) ∉ locked ∧ u.value = v then m - 1 else m := by
  rw [scanDest_succ]
  have hin : ¬(((m : Nat) : Int) + (-1) < 0 ∨
      (line.length : Int) ≤ ((m : Nat) : Int) + (-1)) := by
    push_neg
    constructor <;> omega
  have hj : ((((m : Nat) : Int) + (-1)).toNat) = m - 1 := by omega
  rw [if_neg hin, hj, hcell]

theorem scanDest_up_empties (line : List (Option Tile)) (locked : List Nat)
    (v : Nat) :
    ∀ (k s fuel : Nat), k ≤ fuel → s + k < line.length →
      (∀ j, s < j → j ≤ s + k → line.getD j none = none) →
      scanDest line locked v 1 fuel s =
        scanDest line locked v 1 (fuel - k) (s + k)
  | 0, s, fuel, _, _, _ => by simp
  | k + 1, s, fuel, hk, hlen, hemp => by
    obtain ⟨f, hf⟩ : ∃ f, fuel = f + 1 := ⟨fuel - 1, by omega⟩
    subst hf
    have hin : ¬(((s : Nat) : Int) + 1 < 0 ∨
        (line.length : Int) ≤ ((s : Nat) : Int) + 1) := by
      push_neg
      constructor <;> omega
    have hj : ((((s : Nat) : Int) + 1).toNat) = s + 1 := by omega
    rw [scanDest_step_empty line locked v 1 f s hin
      (by rw [hj]; exact hemp (s + 1) (by omega) (by omega)), hj]
    have harith : f + 1 - (k + 1) = f - k := by omega
    have harith2 : s + (k + 1) = (s + 1) + k := by omega
    rw [harith, harith2]
    exact scanDest_up_empties line locked v k (s + 1) f (by omega) (by omega)
      (fun j h1 h2 => hemp j (by omega) (by omega))

theorem scanDest_at_top (line : List (Option Tile)) (locked : List Nat)
    (v : Nat) (fuel s : Nat) (hs : s + 1 = line.length) :
    scanDest line locked v 1 fuel s = s := by
  cases fuel with
  | zero => rfl
  | succ f => rw [scanDest_succ, if_pos (Or.inr (by omega))]

theorem scanDest_blocker_pos (line : List (Option Tile)) (locked : List Nat)
    (v : Nat) (fuel s : Nat) (u : Tile) (hs : s + 1 < line.length)
    (hcell : line.getD (s + 1) none = some u) :
    scanDest line locked v 1 (fuel + 1) s =
      if (s + 1) ∉ locked ∧ u.value = v then s + 1 else s := by
  rw [scanDest_succ]
  have hin : ¬(((s : Nat) : Int) + 1 < 0 ∨
      (line.length : Int) ≤ ((s : Nat) : Int) + 1) := by
    push_neg
    constructor <;> omega
  have hj : ((((s : Nat) : Int) + 1).toNat) = s + 1 := by omega
  rw [if_neg hin, hj, hcell]

/-! ## A line holding exactly three tiles -/


theorem getD_map_range {α : Type} (f : Nat → α) (n i : Nat) (d : α) :
    ((List.range n).map f).getD i d = if i < n then f i else d := by
  by_cases h : i < n
  · rw [if_pos h, List.getD_eq_getElem _ _ (by simpa using h)]
    simp
  · rw [if_neg h, List.getD_eq_default _ _ (by simpa using h)]

theorem threeTileLine_length (n p0 p1 p2 : Nat) (t0 t1 t2 : Tile) :
    (threeTileLine n p0 p1 p2 t0 t1 t2).length = n := by
  simp [threeTileLine]

theorem range_split_at (a b : Nat) (h : a < b) :
    List.range b =
      List.range a ++ a :: (List.range (b - a - 1)).map (a + 1 + ·) := by
  conv_lhs => rw [show b = (a + 1) + (b - a - 1) from by omega]
  rw [List.range_add, List.range_succ]
  simp [List.append_assoc]

/-- Tail of the three-equal-tiles computation, slide direction `-1`: from a
state whose line holds `t0` at cell 0 and `t1`, `t2` at `p1 < p2`, running
the remaining iterations merges `t1` into cell 0 (locking it) and slides
`t2` to cell 1 without a second merge. -/
theorem slideThreeTail_neg (n p1 p2 : Nat) (t0 t1 t2 : Tile) (st1 : LineState)
    (h01 : 0 < p1) (h12 : p1 < p2) (h2n : p2 < n)
    (hv01 : t0.value = t1.value)
    (hlen : st1.line.length = n) (hlock : st1.locked = [])
    (hgain : st1.gained = 0) (hmerg : st1.merges = [])
    (hchar : ∀ j, st1.line.getD j none =
      if j = 0 then some t0 else if j = p1 then some t1
      else if j = p2 then some t2 else none)
    (A B C : List Nat)
    (hA : ∀ i ∈ A, 0 < i ∧ i < p1)
    (hB : ∀ i ∈ B, p1 < i ∧ i < p2)
    (hC : ∀ i ∈ C, p2 < i) :
    (∀ j, ((A ++ p1 :: (B ++ p2 :: C)).foldl (slideStep (-1)) st1).line.getD j
        none =
      if j = 0 then some { t0 with value := t0.value * 2, bump := true }
      else if j = 1 then some t2 else none) ∧
    ((A ++ p1 :: (B ++ p2 :: C)).foldl (slideStep (-1)) st1).line.length = n ∧
    ((A ++ p1 :: (B ++ p2 :: C)).foldl (slideStep (-1)) st1).moved = true ∧
    ((A ++ p1 :: (B ++ p2 :: C)).foldl (slideStep (-1)) st1).gained =
      t0.value * 2 ∧
    ((A ++ p1 :: (B ++ p2 :: C)).foldl (slideStep (-1)) st1).merges = [0] := by
  rw [List.foldl_append,
    foldl_slideStep_skips (-1) A st1 (fun i hi => by
      have hia := hA i hi
      rw [hchar i, if_neg (by omega), if_neg (by omega), if_neg (by omega)]),
    List.foldl_cons]
  have hc0 : st1.line.getD 0 none = some t0 := by
    rw [hchar 0, if_pos rfl]
  have hc1 : st1.line.getD p1 none = some t1 := by
    rw [hchar p1, if_neg (by omega), if_pos rfl]
  have hscan1 : scanDest st1.line st1.locked t1.value (-1) st1.line.length p1
      = 0 := by
    rw [hlock, hlen, show p1 = 1 + (p1 - 1) from by omega,
      scanDest_down_empties st1.line [] t1.value (p1 - 1) 1 n (by omega)
        (by rw [hlen]; omega)
        (fun j hj1 hj2 => by
          rw [hchar j, if_neg (by omega), if_neg (by omega), if_neg (by omega)])]
    obtain ⟨f, hf⟩ : ∃ f, n - (p1 - 1) = f + 1 := ⟨n - (p1 - 1) - 1, by omega⟩
    rw [hf,
      scanDest_blocker_neg st1.line [] t1.value f 1 t0 (by omega)
        (by rw [hlen]; omega)
        (by rw [show (1 : Nat) - 1 = 0 from rfl]; exact hc0),
      if_pos ⟨by simp, hv01⟩]
  have hstep1 : slideStep (-1) st1 p1 =
      ⟨(st1.line.set 0
          (some { t0 with value := t0.value * 2, bump := true })).set p1 none,
        0 :: st1.locked, true, st1.gained + t0.value * 2, st1.merges ++ [0],
        st1.relocs⟩ := by
    unfold slideStep
    rw [hc1]
    dsimp only
    rw [hscan1, if_neg (by omega : ¬(0 = p1)), hc0]
    dsimp only
    rw [if_pos ⟨hv01, by rw [hlock]; simp⟩]
  rw [hstep1]
  have hlen2 : ((st1.line.set 0
      (some { t0 with value := t0.value * 2, bump := true })).set p1
        none).length = n := by
    rw [List.length_set, List.length_set, hlen]
  have hchar2 : ∀ j, ((st1.line.set 0
      (some { t0 with value := t0.value * 2, bump := true })).set p1
        none).getD j none =
      if j = 0 then some { t0 with value := t0.value * 2, bump := true }
      else if j = p2 then some t2 else none := by
    intro j
    rw [getD_set_general, getD_set_general]
    by_cases hj1 : j = p1
    · subst hj1
      rw [if_pos ⟨rfl, by rw [List.length_set, hlen]; omega⟩,
        if_neg (by omega), if_neg (by omega)]
    · rw [if_neg (fun hand => hj1 hand.1.symm)]
      by_cases hj0 : j = 0
      · subst hj0
        rw [if_pos ⟨rfl, by rw [hlen]; omega⟩, if_pos rfl]
      · rw [if_neg (fun hand => hj0 hand.1.symm), hchar j]
        simp only [if_neg hj0, if_neg hj1]
  rw [List.foldl_append]
  rw [foldl_slideStep_skips (-1) B _ (fun i hi => by
    have hib := hB i hi
    show ((st1.line.set 0
      (some { t0 with value := t0.value * 2, bump := true })).set p1
        none).getD i none = none
    rw [hchar2 i, if_neg (by omega), if_neg (by omega)]),
    List.foldl_cons]
  have hc2 : ((st1.line.set 0
      (some { t0 with value := t0.value * 2, bump := true })).set p1
        none).getD p2 none = some t2 := by
    rw [hchar2 p2, if_neg (by omega), if_pos rfl]
  have hcm : ((st1.line.set 0
      (some { t0 with value := t0.value * 2, bump := true })).set p1
        none).getD 0 none =
      some { t0 with value := t0.value * 2, bump := true } := by
    rw [hchar2 0, if_pos rfl]
  have hscan2 : scanDest ((st1.line.set 0
      (some { t0 with value := t0.value * 2, bump := true })).set p1 none)
      (0 :: st1.locked) t2.value (-1)
      ((st1.line.set 0
        (some { t0 with value := t0.value * 2, bump := true })).set p1
          none).length p2 = 1 := by
    rw [hlock, hlen2, show p2 = 1 + (p2 - 1) from by omega,
      scanDest_down_empties _ (0 :: []) t2.value (p2 - 1) 1 n (by omega)
        (by rw [hlen2]; omega)
        (fun j hj1 hj2 => by
          rw [hchar2 j, if_neg (by omega), if_neg (by omega)])]
    obtain ⟨f, hf⟩ : ∃ f, n - (p2 - 1) = f + 1 := ⟨n - (p2 - 1) - 1, by omega⟩
    rw [hf,
      scanDest_blocker_neg _ (0 :: []) t2.value f 1
        { t0 with value := t0.value * 2, bump := true } (by omega)
        (by rw [hlen2]; omega)
        (by rw [show (1 : Nat) - 1 = 0 from rfl]; exact hcm),
      if_neg (fun hand => hand.1 (by simp))]
  have hstep2 : slideStep (-1)
      (⟨(st1.line.set 0
          (some { t0 with value := t0.value * 2, bump := true })).set p1 none,
        0 :: st1.locked, true, st1.gained + t0.value * 2, st1.merges ++ [0],
        st1.relocs⟩ : LineState) p2 =
      ⟨(((st1.line.set 0
          (some { t0 with value := t0.value * 2, bump := true })).set p1
            none).set 1 (some t2)).set p2 none,
        0 :: st1.locked, true, st1.gained + t0.value * 2, st1.merges ++ [0],
        st1.relocs ++ [(p2, 1)]⟩ := by
    unfold slideStep
    dsimp only
    rw [hc2]
    dsimp only
    rw [hscan2, if_neg (by omega : ¬(1 = p2)),
      hchar2 1, if_neg (by omega), if_neg (by omega)]
  rw [hstep2]
  have hchar3 : ∀ j, ((((st1.line.set 0
      (some { t0 with value := t0.value * 2, bump := true })).set p1
        none).set 1 (some t2)).set p2 none).getD j none =
      if j = 0 then some { t0 with value := t0.value * 2, bump := true }
      else if j = 1 then some t2 else none := by
    intro j
    rw [getD_set_general, getD_set_general]
    by_cases hjp2 : j = p2
    · subst hjp2
      rw [if_pos ⟨rfl, by rw [List.length_set, hlen2]; omega⟩,
        if_neg (by omega), if_neg (by omega)]
    · rw [if_neg (fun hand => hjp2 hand.1.symm)]
      by_cases hj1 : j = 1
      · subst hj1
        rw [if_pos ⟨rfl, by rw [hlen2]; omega⟩, if_neg (by omega), if_pos rfl]
      · rw [if_neg (fun hand => hj1 hand.1.symm), hchar2 j]
        by_cases hj0 : j = 0
        · subst hj0
          rw [if_pos rfl, if_pos rfl]
        · rw [if_neg hj0, if_neg hjp2, if_neg hj0, if_neg hj1]
  rw [foldl_slideStep_skips (-1) C _ (fun i hi => by
    have hic := hC i hi
    show ((((st1.line.set 0
      (some { t0 with value := t0.value * 2, bump := true })).set p1
        none).set 1 (some t2)).set p2 none).getD i none = none
    rw [hchar3 i, if_neg (by omega), if_neg (by omega)])]
  refine ⟨hchar3, ?_, rfl, ?_, ?_⟩
  · show ((((st1.line.set 0
      (some { t0 with value := t0.value * 2, bump := true })).set p1
        none).set 1 (some t2)).set p2 none).length = n
    rw [List.length_set, List.length_set, hlen2]
  · show st1.gained + t0.value * 2 = t0.value * 2
    rw [hgain]
    omega
  · show st1.merges ++ [0] = [0]
    rw [hmerg]
    rfl


theorem segMap_cons (a k : Nat) : segMap a (k + 1) = a :: segMap (a + 1) k := by
  unfold segMap
  rw [List.range_succ_eq_map, List.map_cons, List.map_map]
  show (a + 0) :: (List.range k).map ((a + ·) ∘ Nat.succ) =
    a :: (List.range k).map (a + 1 + ·)
  rw [Nat.add_zero]
  exact congrArg (fun l => a :: l)
    (List.map_congr_left (fun x _ => show a + (x + 1) = a + 1 + x from by omega))

theorem mem_segMap (i a k : Nat) : i ∈ segMap a k ↔ a ≤ i ∧ i < a + k := by
  unfold segMap
  constructor
  · intro h
    rcases List.mem_map.mp h with ⟨x, hx, he⟩
    rw [List.mem_range] at hx
    have he2 : a + x = i := he
    omega
  · intro h
    rw [List.mem_map]
    exact ⟨i - a, List.mem_range.mpr (by omega),
      show a + (i - a) = i from by omega⟩

theorem range_eq_segMap (n : Nat) : List.range n = segMap 0 n := by
  unfold segMap
  conv_lhs => rw [← List.map_id (List.range n)]
  exact List.map_congr_left (fun x _ => show x = 0 + x from by omega)

theorem segMap_split : ∀ (k a p : Nat), a ≤ p → p < a + k →
    segMap a k = segMap a (p - a) ++ p :: segMap (p + 1) (a + k - p - 1)
  | 0, a, p, h1, h2 => absurd h2 (by omega)
  | k + 1, a, p, h1, h2 => by
    by_cases hap : p = a
    · subst hap
      rw [segMap_cons, show p - p = 0 from by omega,
        show segMap p 0 = [] from rfl, List.nil_append,
        show p + (k + 1) - p - 1 = k from by omega]
    · rw [show p - a = (p - a - 1) + 1 from by omega, segMap_cons a (p - a - 1),
        List.cons_append, segMap_cons a k]
      exact congrArg (fun l => a :: l) (by
        rw [segMap_split k (a + 1) p (by omega) (by omega),
          show p - (a + 1) = p - a - 1 from by omega,
          show a + 1 + k - p - 1 = a + (k + 1) - p - 1 from by omega])

/-- Sliding a line whose only tiles are three equal-valued tiles toward
index 0: exactly one merge happens, at cell 0, between the two tiles
nearest that edge; the third tile slides adjacent (cell 1) and does not
merge. -/
theorem slideLine_three_neg (n p0 p1 p2 : Nat) (t0 t1 t2 : Tile)
    (h01 : p0 < p1) (h12 : p1 < p2) (h2n : p2 < n)
    (hv01 : t0.value = t1.value) :
    (∀ j, (slideLine (threeTileLine n p0 p1 p2 t0 t1 t2) (-1)).line.getD j
        none =
      if j = 0 then some { t0 with value := t0.value * 2, bump := true }
      else if j = 1 then some t2 else none) ∧
    (slideLine (threeTileLine n p0 p1 p2 t0 t1 t2) (-1)).line.length = n ∧
    (slideLine (threeTileLine n p0 p1 p2 t0 t1 t2) (-1)).moved = true ∧
    (slideLine (threeTileLine n p0 p1 p2 t0 t1 t2) (-1)).gained =
      t0.value * 2 ∧
    (slideLine (threeTileLine n p0 p1 p2 t0 t1 t2) (-1)).merges = [0] := by
  have hL : ∀ j, (threeTileLine n p0 p1 p2 t0 t1 t2).getD j none =
      if j < n then
        (if j = p0 then some t0 else if j = p1 then some t1
         else if j = p2 then some t2 else none)
      else none := fun j => by
    unfold threeTileLine
    exact getD_map_range _ n j none
  have hlenL := threeTileLine_length n p0 p1 p2 t0 t1 t2
  have horder : slideLine (threeTileLine n p0 p1 p2 t0 t1 t2) (-1) =
      (List.range n).foldl (slideStep (-1))
        ⟨threeTileLine n p0 p1 p2 t0 t1 t2, [], false, 0, [], []⟩ := by
    unfold slideLine
    rw [if_neg (by decide), hlenL]
  have hdecomp : List.range n = segMap 0 p0 ++ p0 ::
      (segMap (p0 + 1) (p1 - p0 - 1) ++ p1 ::
        (segMap (p1 + 1) (p2 - p1 - 1) ++ p2 ::
          segMap (p2 + 1) (n - p2 - 1))) := by
    rw [range_eq_segMap, segMap_split n 0 p0 (by omega) (by omega),
      show p0 - 0 = p0 from by omega, show 0 + n - p0 - 1 = n - p0 - 1 from by omega,
      segMap_split (n - p0 - 1) (p0 + 1) p1 (by omega) (by omega),
      show p1 - (p0 + 1) = p1 - p0 - 1 from by omega,
      show p0 + 1 + (n - p0 - 1) - p1 - 1 = n - p1 - 1 from by omega,
      segMap_split (n - p1 - 1) (p1 + 1) p2 (by omega) (by omega),
      show p2 - (p1 + 1) = p2 - p1 - 1 from by omega,
      show p1 + 1 + (n - p1 - 1) - p2 - 1 = n - p2 - 1 from by omega]
  rw [horder, hdecomp, List.foldl_append,
    foldl_slideStep_skips (-1) (segMap 0 p0) _ (fun i hi => by
      have hmem := (mem_segMap i 0 p0).mp hi
      show (threeTileLine n p0 p1 p2 t0 t1 t2).getD i none = none
      rw [hL i, if_pos (by omega), if_neg (by omega), if_neg (by omega),
        if_neg (by omega)]),
    List.foldl_cons]
  have hAmem : ∀ i ∈ segMap (p0 + 1) (p1 - p0 - 1), 0 < i ∧ i < p1 := by
    intro i hi
    have := (mem_segMap i (p0 + 1) (p1 - p0 - 1)).mp hi
    omega
  have hBmem : ∀ i ∈ segMap (p1 + 1) (p2 - p1 - 1), p1 < i ∧ i < p2 := by
    intro i hi
    have := (mem_segMap i (p1 + 1) (p2 - p1 - 1)).mp hi
    omega
  have hCmem : ∀ i ∈ segMap (p2 + 1) (n - p2 - 1), p2 < i := by
    intro i hi
    have := (mem_segMap i (p2 + 1) (n - p2 - 1)).mp hi
    omega
  by_cases hp0 : p0 = 0
  · subst hp0
    have hc : (threeTileLine n 0 p1 p2 t0 t1 t2).getD 0 none = some t0 := by
      rw [hL 0, if_pos (by omega), if_pos rfl]
    have hstep0 : slideStep (-1)
        (⟨threeTileLine n 0 p1 p2 t0 t1 t2, [], false, 0, [], []⟩ : LineState)
          0 =
        ⟨threeTileLine n 0 p1 p2 t0 t1 t2, [], false, 0, [], []⟩ := by
      unfold slideStep
      dsimp only
      rw [hc]
      dsimp only
      rw [scanDest_at_zero, if_pos rfl]
    rw [hstep0]
    refine slideThreeTail_neg n p1 p2 t0 t1 t2 _ (by omega) h12 h2n hv01 hlenL
      rfl rfl rfl (fun j => ?_) _ _ _ hAmem hBmem hCmem
    show (threeTileLine n 0 p1 p2 t0 t1 t2).getD j none = _
    rw [hL j]
    by_cases hj : j < n
    · rw [if_pos hj]
    · rw [if_neg hj, if_neg (by omega), if_neg (by omega), if_neg (by omega)]
  · have hcp : (threeTileLine n p0 p1 p2 t0 t1 t2).getD p0 none = some t0 := by
      rw [hL p0, if_pos (by omega), if_pos rfl]
    have hc0 : (threeTileLine n p0 p1 p2 t0 t1 t2).getD 0 none = none := by
      rw [hL 0, if_pos (by omega), if_neg (by omega), if_neg (by omega),
        if_neg (by omega)]
    have hscan0 : scanDest (threeTileLine n p0 p1 p2 t0 t1 t2) [] t0.value
        (-1) (threeTileLine n p0 p1 p2 t0 t1 t2).length p0 = 0 := by
      rw [hlenL]
      have hd := scanDest_down_empties (threeTileLine n p0 p1 p2 t0 t1 t2) []
        t0.value p0 0 n (by omega) (by rw [hlenL]; omega)
        (fun j hj1 hj2 => by
          rw [hL j, if_pos (by omega), if_neg (by omega), if_neg (by omega),
            if_neg (by omega)])
      rw [show (0 + p0 : Nat) = p0 from by omega] at hd
      rw [hd]
      exact scanDest_at_zero _ _ _ _
    have hstep0 : slideStep (-1)
        (⟨threeTileLine n p0 p1 p2 t0 t1 t2, [], false, 0, [], []⟩ : LineState)
          p0 =
        ⟨((threeTileLine n p0 p1 p2 t0 t1 t2).set 0 (some t0)).set p0 none,
          [], true, 0, [], [] ++ [(p0, 0)]⟩ := by
      unfold slideStep
      dsimp only
      rw [hcp]
      dsimp only
      rw [hscan0, if_neg (fun he => hp0 he.symm), hc0]
    rw [hstep0]
    refine slideThreeTail_neg n p1 p2 t0 t1 t2 _ (by omega) h12 h2n hv01
      (by show (((threeTileLine n p0 p1 p2 t0 t1 t2).set 0 (some t0)).set p0
            none).length = n
          rw [List.length_set, List.length_set, hlenL])
      rfl rfl rfl (fun j => ?_) _ _ _ hAmem hBmem hCmem
    show (((threeTileLine n p0 p1 p2 t0 t1 t2).set 0 (some t0)).set p0
      none).getD j none = _
    rw [getD_set_general, getD_set_general]
    by_cases hjp0 : j = p0
    · subst hjp0
      rw [if_pos ⟨rfl, by rw [List.length_set, hlenL]; omega⟩,
        if_neg (by omega), if_neg (by omega), if_neg (by omega)]
    · rw [if_neg (fun hand => hjp0 hand.1.symm)]
      by_cases hj0 : j = 0
      · subst hj0
        rw [if_pos ⟨rfl, by rw [hlenL]; omega⟩, if_pos rfl]
      · rw [if_neg (fun hand => hj0 hand.1.symm), hL j]
        by_cases hj : j < n
        · rw [if_pos hj]
          simp only [if_neg hjp0, if_neg hj0]
        · rw [if_neg hj]
          simp only [if_neg hj0]
          rw [if_neg (by omega), if_neg (by omega)]

theorem reverse_append_cons {α : Type} (X : List α) (a : α) (Y : List α) :
    (X ++ a :: Y).reverse = Y.reverse ++ a :: X.reverse := by
  rw [List.reverse_append, List.reverse_cons, List.append_assoc,
    List.singleton_append]

/-- Tail of the three-equal-tiles computation, slide direction `+1`: from a
state whose line holds `t2` at cell `n-1` and `t1`, `t0` at `p1 > p0`,
running the remaining iterations merges `t1` into cell `n-1` (locking it)
and slides `t0` to cell `n-2` without a second merge. -/
theorem slideThreeTail_pos (n p0 p1 : Nat) (t0 t1 t2 : Tile) (st1 : LineState)
    (h01 : p0 < p1) (h1n : p1 + 1 < n)
    (hv : t2.value = t1.value)
    (hlen : st1.line.length = n) (hlock : st1.locked = [])
    (hgain : st1.gained = 0) (hmerg : st1.merges = [])
    (hchar : ∀ j, st1.line.getD j none =
      if j = n - 1 then some t2 else if j = p1 then some t1
      else if j = p0 then some t0 else none)
    (B A D : List Nat)
    (hB : ∀ i ∈ B, p1 < i ∧ i < n - 1)
    (hA : ∀ i ∈ A, p0 < i ∧ i < p1)
    (hD : ∀ i ∈ D, i < p0) :
    (∀ j, ((B ++ p1 :: (A ++ p0 :: D)).foldl (slideStep 1) st1).line.getD j
        none =
      if j = n - 1 then some { t2 with value := t2.value * 2, bump := true }
      else if j = n - 2 then some t0 else none) ∧
    ((B ++ p1 :: (A ++ p0 :: D)).foldl (slideStep 1) st1).line.length = n ∧
    ((B ++ p1 :: (A ++ p0 :: D)).foldl (slideStep 1) st1).moved = true ∧
    ((B ++ p1 :: (A ++ p0 :: D)).foldl (slideStep 1) st1).gained =
      t2.value * 2 ∧
    ((B ++ p1 :: (A ++ p0 :: D)).foldl (slideStep 1) st1).merges = [n - 1] := by
  rw [List.foldl_append,
    foldl_slideStep_skips 1 B st1 (fun i hi => by
      have hib := hB i hi
      rw [hchar i, if_neg (by omega), if_neg (by omega), if_neg (by omega)]),
    List.foldl_cons]
  have hct : st1.line.getD (n - 1) none = some t2 := by
    rw [hchar (n - 1), if_pos rfl]
  have hc1 : st1.line.getD p1 none = some t1 := by
    rw [hchar p1, if_neg (by omega), if_pos rfl]
  have hscan1 : scanDest st1.line st1.locked t1.value 1 st1.line.length p1
      = n - 1 := by
    rw [hlock, hlen,
      scanDest_up_empties st1.line [] t1.value (n - 2 - p1) p1 n (by omega)
        (by rw [hlen]; omega)
        (fun j hj1 hj2 => by
          rw [hchar j, if_neg (by omega), if_neg (by omega), if_neg (by omega)])]
    obtain ⟨f, hf⟩ : ∃ f, n - (n - 2 - p1) = f + 1 := ⟨n - (n - 2 - p1) - 1, by omega⟩
    rw [hf, show p1 + (n - 2 - p1) = n - 2 from by omega,
      scanDest_blocker_pos st1.line [] t1.value f (n - 2) t2
        (by rw [hlen]; omega)
        (by rw [show n - 2 + 1 = n - 1 from by omega]; exact hct),
      if_pos ⟨by simp, hv⟩]
    omega
  have hstep1 : slideStep 1 st1 p1 =
      ⟨(st1.line.set (n - 1)
          (some { t2 with value := t2.value * 2, bump := true })).set p1 none,
        (n - 1) :: st1.locked, true, st1.gained + t2.value * 2,
        st1.merges ++ [n - 1], st1.relocs⟩ := by
    unfold slideStep
    rw [hc1]
    dsimp only
    rw [hscan1, if_neg (by omega : ¬(n - 1 = p1)), hct]
    dsimp only
    rw [if_pos ⟨hv, by rw [hlock]; simp⟩]
  rw [hstep1]
  have hlen2 : ((st1.line.set (n - 1)
      (some { t2 with value := t2.value * 2, bump := true })).set p1
        none).length = n := by
    rw [List.length_set, List.length_set, hlen]
  have hchar2 : ∀ j, ((st1.line.set (n - 1)
      (some { t2 with value := t2.value * 2, bump := true })).set p1
        none).getD j none =
      if j = n - 1 then some { t2 with value := t2.value * 2, bump := true }
      else if j = p0 then some t0 else none := by
    intro j
    rw [getD_set_general, getD_set_general]
    by_cases hj1 : j = p1
    · subst hj1
      rw [if_pos ⟨rfl, by rw [List.length_set, hlen]; omega⟩,
        if_neg (by omega), if_neg (by omega)]
    · rw [if_neg (fun hand => hj1 hand.1.symm)]
      by_cases hjt : j = n - 1
      · subst hjt
        rw [if_pos ⟨rfl, by rw [hlen]; omega⟩, if_pos rfl]
      · rw [if_neg (fun hand => hjt hand.1.symm), hchar j]
        simp only [if_neg hjt, if_neg hj1]
  rw [List.foldl_append]
  rw [foldl_slideStep_skips 1 A _ (fun i hi => by
    have hia := hA i hi
    show ((st1.line.set (n - 1)
      (some { t2 with value := t2.value * 2, bump := true })).set p1
        none).getD i none = none
    rw [hchar2 i, if_neg (by omega), if_neg (by omega)]),
    List.foldl_cons]
  have hc0 : ((st1.line.set (n - 1)
      (some { t2 with value := t2.value * 2, bump := true })).set p1
        none).getD p0 none = some t0 := by
    rw [hchar2 p0, if_neg (by omega), if_pos rfl]
  have hcm : ((st1.line.set (n - 1)
      (some { t2 with value := t2.value * 2, bump := true })).set p1
        none).getD (n - 1) none =
      some { t2 with value := t2.value * 2, bump := true } := by
    rw [hchar2 (n - 1), if_pos rfl]
  have hscan0 : scanDest ((st1.line.set (n - 1)
      (some { t2 with value := t2.value * 2, bump := true })).set p1 none)
      ((n - 1) :: st1.locked) t0.value 1
      ((st1.line.set (n - 1)
        (some { t2 with value := t2.value * 2, bump := true })).set p1
          none).length p0 = n - 2 := by
    rw [hlock, hlen2,
      scanDest_up_empties _ ((n - 1) :: []) t0.value (n - 2 - p0) p0 n
        (by omega) (by rw [hlen2]; omega)
        (fun j hj1 hj2 => by
          rw [hchar2 j, if_neg (by omega), if_neg (by omega)])]
    obtain ⟨f, hf⟩ : ∃ f, n - (n - 2 - p0) = f + 1 :=
      ⟨n - (n - 2 - p0) - 1, by omega⟩
    have hmem1 : (n - 2 + 1) ∈ ((n - 1) :: ([] : List Nat)) := by
      rw [show n - 2 + 1 = n - 1 from by omega]
      exact List.mem_cons_self _ _
    rw [hf, show p0 + (n - 2 - p0) = n - 2 from by omega,
      scanDest_blocker_pos _ ((n - 1) :: []) t0.value f (n - 2)
        { t2 with value := t2.value * 2, bump := true }
        (by rw [hlen2]; omega)
        (by rw [show n - 2 + 1 = n - 1 from by omega]; exact hcm),
      if_neg (fun hand => hand.1 hmem1)]
  have hstep0 : slideStep 1
      (⟨(st1.line.set (n - 1)
          (some { t2 with value := t2.value * 2, bump := true })).set p1 none,
        (n - 1) :: st1.locked, true, st1.gained + t2.value * 2,
        st1.merges ++ [n - 1], st1.relocs⟩ : LineState) p0 =
      ⟨(((st1.line.set (n - 1)
          (some { t2 with value := t2.value * 2, bump := true })).set p1
            none).set (n - 2) (some t0)).set p0 none,
        (n - 1) :: st1.locked, true, st1.gained + t2.value * 2,
        st1.merges ++ [n - 1], st1.relocs ++ [(p0, n - 2)]⟩ := by
    unfold slideStep
    dsimp only
    rw [hc0]
    dsimp only
    rw [hscan0, if_neg (by omega : ¬(n - 2 = p0)),
      hchar2 (n - 2), if_neg (by omega), if_neg (by omega)]
  rw [hstep0]
  have hchar3 : ∀ j, ((((st1.line.set (n - 1)
      (some { t2 with value := t2.value * 2, bump := true })).set p1
        none).set (n - 2) (some t0)).set p0 none).getD j none =
      if j = n - 1 then some { t2 with value := t2.value * 2, bump := true }
      else if j = n - 2 then some t0 else none := by
    intro j
    rw [getD_set_general, getD_set_general]
    by_cases hjp0 : j = p0
    · subst hjp0
      rw [if_pos ⟨rfl, by rw [List.length_set, hlen2]; omega⟩,
        if_neg (by omega), if_neg (by omega)]
    · rw [if_neg (fun hand => hjp0 hand.1.symm)]
      by_cases hjm : j = n - 2
      · subst hjm
        rw [if_pos ⟨rfl, by rw [hlen2]; omega⟩, if_neg (by omega), if_pos rfl]
      · rw [if_neg (fun hand => hjm hand.1.symm), hchar2 j]
        by_cases hjt : j = n - 1
        · subst hjt
          rw [if_pos rfl, if_pos rfl]
        · rw [if_neg hjt, if_neg hjp0, if_neg hjt, if_neg hjm]
  rw [foldl_slideStep_skips 1 D _ (fun i hi => by
    have hid := hD i hi
    show ((((st1.line.set (n - 1)
      (some { t2 with value := t2.value * 2, bump := true })).set p1
        none).set (n - 2) (some t0)).set p0 none).getD i none = none
    rw [hchar3 i, if_neg (by omega), if_neg (by omega)])]
  refine ⟨hchar3, ?_, rfl, ?_, ?_⟩
  · show ((((st1.line.set (n - 1)
      (some { t2 with value := t2.value * 2, bump := true })).set p1
        none).set (n - 2) (some t0)).set p0 none).length = n
    rw [List.length_set, List.length_set, hlen2]
  · show st1.gained + t2.value * 2 = t2.value * 2
    rw [hgain]
    omega
  · show st1.merges ++ [n - 1] = [n - 1]
    rw [hmerg]
    rfl

/-- Sliding a line whose only tiles are three equal-valued tiles toward
index `n-1`: exactly one merge happens, at cell `n-1`, between the two
tiles nearest that edge; the third tile slides adjacent (cell `n-2`) and
does not merge. -/
theorem slideLine_three_pos (n p0 p1 p2 : Nat) (t0 t1 t2 : Tile)
    (h01 : p0 < p1) (h12 : p1 < p2) (h2n : p2 < n)
    (hv21 : t2.value = t1.value) :
    (∀ j, (slideLine (threeTileLine n p0 p1 p2 t0 t1 t2) 1).line.getD j
        none =
      if j = n - 1 then some { t2 with value := t2.value * 2, bump := true }
      else if j = n - 2 then some t0 else none) ∧
    (slideLine (threeTileLine n p0 p1 p2 t0 t1 t2) 1).line.length = n ∧
    (slideLine (threeTileLine n p0 p1 p2 t0 t1 t2) 1).moved = true ∧
    (slideLine (threeTileLine n p0 p1 p2 t0 t1 t2) 1).gained =
      t2.value * 2 ∧
    (slideLine (threeTileLine n p0 p1 p2 t0 t1 t2) 1).merges = [n - 1] := by
  have hL : ∀ j, (threeTileLine n p0 p1 p2 t0 t1 t2).getD j none =
      if j < n then
        (if j = p0 then some t0 else if j = p1 then some t1
         else if j = p2 then some t2 else none)
      else none := fun j => by
    unfold threeTileLine
    exact getD_map_range _ n j none
  have hlenL := threeTileLine_length n p0 p1 p2 t0 t1 t2
  have horder : slideLine (threeTileLine n p0 p1 p2 t0 t1 t2) 1 =
      ((List.range n).reverse).foldl (slideStep 1)
        ⟨threeTileLine n p0 p1 p2 t0 t1 t2, [], false, 0, [], []⟩ := by
    unfold slideLine
    rw [if_pos rfl, hlenL]
  have hdecomp : List.range n = segMap 0 p0 ++ p0 ::
      (segMap (p0 + 1) (p1 - p0 - 1) ++ p1 ::
        (segMap (p1 + 1) (p2 - p1 - 1) ++ p2 ::
          segMap (p2 + 1) (n - p2 - 1))) := by
    rw [range_eq_segMap, segMap_split n 0 p0 (by omega) (by omega),
      show p0 - 0 = p0 from by omega, show 0 + n - p0 - 1 = n - p0 - 1 from by omega,
      segMap_split (n - p0 - 1) (p0 + 1) p1 (by omega) (by omega),
      show p1 - (p0 + 1) = p1 - p0 - 1 from by omega,
      show p0 + 1 + (n - p0 - 1) - p1 - 1 = n - p1 - 1 from by omega,
      segMap_split (n - p1 - 1) (p1 + 1) p2 (by omega) (by omega),
      show p2 - (p1 + 1) = p2 - p1 - 1 from by omega,
      show p1 + 1 + (n - p1 - 1) - p2 - 1 = n - p2 - 1 from by omega]
  have hdecompR : (List.range n).reverse =
      (segMap (p2 + 1) (n - p2 - 1)).reverse ++ p2 ::
        ((segMap (p1 + 1) (p2 - p1 - 1)).reverse ++ p1 ::
          ((segMap (p0 + 1) (p1 - p0 - 1)).reverse ++ p0 ::
            (segMap 0 p0).reverse)) := by
    rw [hdecomp, reverse_append_cons, reverse_append_cons, reverse_append_cons]
    simp only [List.append_assoc, List.cons_append]
  rw [horder, hdecompR, List.foldl_append,
    foldl_slideStep_skips 1 ((segMap (p2 + 1) (n - p2 - 1)).reverse) _
      (fun i hi => by
        have hmem := (mem_segMap i (p2 + 1) (n - p2 - 1)).mp
          (List.mem_reverse.mp hi)
        show (threeTileLine n p0 p1 p2 t0 t1 t2).getD i none = none
        rw [hL i, if_pos (by omega), if_neg (by omega), if_neg (by omega),
          if_neg (by omega)]),
    List.foldl_cons]
  have hBmem : ∀ i ∈ (segMap (p1 + 1) (p2 - p1 - 1)).reverse,
      p1 < i ∧ i < n - 1 := by
    intro i hi
    have := (mem_segMap i (p1 + 1) (p2 - p1 - 1)).mp (List.mem_reverse.mp hi)
    omega
  have hAmem : ∀ i ∈ (segMap (p0 + 1) (p1 - p0 - 1)).reverse,
      p0 < i ∧ i < p1 := by
    intro i hi
    have := (mem_segMap i (p0 + 1) (p1 - p0 - 1)).mp (List.mem_reverse.mp hi)
    omega
  have hDmem : ∀ i ∈ (segMap 0 p0).reverse, i < p0 := by
    intro i hi
    have := (mem_segMap i 0 p0).mp (List.mem_reverse.mp hi)
    omega
  have hcp2 : (threeTileLine n p0 p1 p2 t0 t1 t2).getD p2 none = some t2 := by
    rw [hL p2, if_pos (by omega), if_neg (by omega), if_neg (by omega),
      if_pos rfl]
  by_cases hp2 : p2 = n - 1
  · have hstep2 : slideStep 1
        (⟨threeTileLine n p0 p1 p2 t0 t1 t2, [], false, 0, [], []⟩ : LineState)
          p2 =
        ⟨threeTileLine n p0 p1 p2 t0 t1 t2, [], false, 0, [], []⟩ := by
      unfold slideStep
      dsimp only
      rw [hcp2]
      dsimp only
      rw [scanDest_at_top _ _ _ _ _ (by rw [hlenL]; omega), if_pos rfl]
    rw [hstep2]
    refine slideThreeTail_pos n p0 p1 t0 t1 t2 _ h01 (by omega) hv21 hlenL
      rfl rfl rfl (fun j => ?_) _ _ _ hBmem hAmem hDmem
    show (threeTileLine n p0 p1 p2 t0 t1 t2).getD j none = _
    rw [hL j]
    by_cases hjt : j = n - 1
    · subst hjt
      rw [if_pos (by omega), if_neg (by omega), if_neg (by omega),
        if_pos (by omega), if_pos rfl]
    · by_cases hj : j < n
      · rw [if_pos hj]
        by_cases hjp0 : j = p0
        · rw [if_pos hjp0, if_neg hjt,
            if_neg (show ¬j = p1 from by omega), if_pos hjp0]
        · rw [if_neg hjp0]
          by_cases hjp1 : j = p1
          · rw [if_pos hjp1, if_neg hjt, if_pos hjp1]
          · rw [if_neg hjp1, if_neg (show ¬j = p2 from by omega), if_neg hjt,
              if_neg hjp1, if_neg hjp0]
      · rw [if_neg hj, if_neg hjt, if_neg (by omega), if_neg (by omega)]
  · have htop : (threeTileLine n p0 p1 p2 t0 t1 t2).getD (n - 1) none
        = none := by
      rw [hL (n - 1), if_pos (by omega), if_neg (by omega), if_neg (by omega),
        if_neg (by omega)]
    have hscan2 : scanDest (threeTileLine n p0 p1 p2 t0 t1 t2) [] t2.value 1
        (threeTileLine n p0 p1 p2 t0 t1 t2).length p2 = n - 1 := by
      rw [hlenL,
        scanDest_up_empties _ [] t2.value (n - 1 - p2) p2 n (by omega)
          (by rw [hlenL]; omega)
          (fun j hj1 hj2 => by
            rw [hL j, if_pos (by omega), if_neg (by omega), if_neg (by omega),
              if_neg (by omega)]),
        show p2 + (n - 1 - p2) = n - 1 from by omega,
        scanDest_at_top _ _ _ _ _ (by rw [hlenL]; omega)]
    have hstep2 : slideStep 1
        (⟨threeTileLine n p0 p1 p2 t0 t1 t2, [], false, 0, [], []⟩ : LineState)
          p2 =
        ⟨((threeTileLine n p0 p1 p2 t0 t1 t2).set (n - 1) (some t2)).set p2
            none, [], true, 0, [], [] ++ [(p2, n - 1)]⟩ := by
      unfold slideStep
      dsimp only
      rw [hcp2]
      dsimp only
      rw [hscan2, if_neg (by omega : ¬(n - 1 = p2)), htop]
    rw [hstep2]
    refine slideThreeTail_pos n p0 p1 t0 t1 t2 _ h01 (by omega) hv21
      (by show (((threeTileLine n p0 p1 p2 t0 t1 t2).set (n - 1)
            (some t2)).set p2 none).length = n
          rw [List.length_set, List.length_set, hlenL])
      rfl rfl rfl (fun j => ?_) _ _ _ hBmem hAmem hDmem
    show (((threeTileLine n p0 p1 p2 t0 t1 t2).set (n - 1) (some t2)).set p2
      none).getD j none = _
    rw [getD_set_general, getD_set_general]
    by_cases hjp2 : j = p2
    · subst hjp2
      rw [if_pos ⟨rfl, by rw [List.length_set, hlenL]; omega⟩,
        if_neg (by omega), if_neg (by omega), if_neg (by omega)]
    · rw [if_neg (fun hand => hjp2 hand.1.symm)]
      by_cases hjt : j = n - 1
      · subst hjt
        rw [if_pos ⟨rfl, by rw [hlenL]; omega⟩, if_pos rfl]
      · rw [if_neg (fun hand => hjt hand.1.symm), hL j]
        by_cases hj : j < n
        · rw [if_pos hj]
          simp only [if_neg hjt, if_neg hjp2]
          by_cases hjp0 : j = p0
          · subst hjp0
            rw [if_pos rfl, if_neg (by omega), if_pos rfl]
          · rw [if_neg hjp0]
            by_cases hjp1 : j = p1
            · subst hjp1
              rw [if_pos rfl, if_pos rfl]
            · rw [if_neg hjp1, if_neg hjp1, if_neg hjp0]
        · rw [if_neg hj, if_neg hjt, if_neg (by omega), if_neg (by omega)]

/-! ## Claim theorems -/

/-- C1, counterexample: the claimed equation "sum of tile values after the
move = sum before + gained" fails on the first merging move: `[2,2]` slid
left yields one tile of value 4 with `gained = 4`, so the sum stays 4 while
the claim predicts 8. -/
theorem C1_counterexample :
    ¬(sumTiles (move [⟨1, 0, 0, 2, false⟩, ⟨2, 0, 1, 2, false⟩] 2 Dir.L).tiles =
      sumTiles [⟨1, 0, 0, 2, false⟩, ⟨2, 0, 1, 2, false⟩] +
        (move [⟨1, 0, 0, 2, false⟩, ⟨2, 0, 1, 2, false⟩] 2 Dir.L).gained) := by
  decide

/-- C1 (amended): conservation for `move` — for every well-formed tile set
and every direction, the sum of all tile values after the move equals the
sum before the move (each merge removes two tiles of value `v` and adds one
of value `2v`); `gained` is the total of merge-created values, not an
addition to the board sum. -/
theorem C1_conservation (tiles : List Tile) (n : Nat) (dir : Dir)
    (h : wellFormed tiles n) :
    sumTiles (move tiles n dir).tiles = sumTiles tiles :=
  move_sum tiles n dir h

/-- Witness for C1: the conservation theorem applied to a concrete merging
move. -/
theorem C1_conservation_witness :
    wellFormed [⟨1, 0, 0, 2, false⟩, ⟨2, 0, 1, 2, false⟩] 2 ∧
    sumTiles (move [⟨1, 0, 0, 2, false⟩, ⟨2, 0, 1, 2, false⟩] 2 Dir.L).tiles =
      sumTiles [⟨1, 0, 0, 2, false⟩, ⟨2, 0, 1, 2, false⟩] :=
  ⟨by decide, C1_conservation _ 2 Dir.L (by decide)⟩

/-- C2: the line `[2, null, 2, 2]` slid toward index 0 yields
`[4, 2, null, null]` with `gained = 4` and `moved = true`; in general, for a
line holding exactly three equal tiles (consecutive in slide order, gaps
allowed), only the pair nearest the target edge merges — one merge, at the
edge cell — and the third tile slides adjacent without merging again, for
either slide direction. -/
theorem C2_three_equal_tiles :
    ((slideLine [some ⟨1, 0, 0, 2, false⟩, none, some ⟨2, 0, 2, 2, false⟩,
        some ⟨3, 0, 3, 2, false⟩] (-1)).line =
        [some ⟨1, 0, 0, 4, true⟩, some ⟨3, 0, 3, 2, false⟩, none, none] ∧
      (slideLine [some ⟨1, 0, 0, 2, false⟩, none, some ⟨2, 0, 2, 2, false⟩,
        some ⟨3, 0, 3, 2, false⟩] (-1)).gained = 4 ∧
      (slideLine [some ⟨1, 0, 0, 2, false⟩, none, some ⟨2, 0, 2, 2, false⟩,
        some ⟨3, 0, 3, 2, false⟩] (-1)).moved = true) ∧
    (∀ (n p0 p1 p2 : Nat) (t0 t1 t2 : Tile) (v : Nat),
      p0 < p1 → p1 < p2 → p2 < n →
      t0.value = v → t1.value = v → t2.value = v →
      (∀ j, (slideLine (threeTileLine n p0 p1 p2 t0 t1 t2) (-1)).line.getD j
          none =
        if j = 0 then some { t0 with value := v * 2, bump := true }
        else if j = 1 then some t2 else none) ∧
      (slideLine (threeTileLine n p0 p1 p2 t0 t1 t2) (-1)).line.length = n ∧
      (slideLine (threeTileLine n p0 p1 p2 t0 t1 t2) (-1)).moved = true ∧
      (slideLine (threeTileLine n p0 p1 p2 t0 t1 t2) (-1)).gained = v * 2 ∧
      (slideLine (threeTileLine n p0 p1 p2 t0 t1 t2) (-1)).merges = [0]) ∧
    (∀ (n p0 p1 p2 : Nat) (t0 t1 t2 : Tile) (v : Nat),
      p0 < p1 → p1 < p2 → p2 < n →
      t0.value = v → t1.value = v → t2.value = v →
      (∀ j, (slideLine (threeTileLine n p0 p1 p2 t0 t1 t2) 1).line.getD j
          none =
        if j = n - 1 then some { t2 with value := v * 2, bump := true }
        else if j = n - 2 then some t0 else none) ∧
      (slideLine (threeTileLine n p0 p1 p2 t0 t1 t2) 1).line.length = n ∧
      (slideLine (threeTileLine n p0 p1 p2 t0 t1 t2) 1).moved = true ∧
      (slideLine (threeTileLine n p0 p1 p2 t0 t1 t2) 1).gained = v * 2 ∧
      (slideLine (threeTileLine n p0 p1 p2 t0 t1 t2) 1).merges = [n - 1]) := by
  refine ⟨⟨by decide, by decide, by decide⟩, ?_, ?_⟩
  · intro n p0 p1 p2 t0 t1 t2 v h01 h12 h2n hv0 hv1 hv2
    subst hv0
    exact slideLine_three_neg n p0 p1 p2 t0 t1 t2 h01 h12 h2n
      (by rw [hv1])
  · intro n p0 p1 p2 t0 t1 t2 v h01 h12 h2n hv0 hv1 hv2
    subst hv2
    exact slideLine_three_pos n p0 p1 p2 t0 t1 t2 h01 h12 h2n
      (by rw [hv1])

/-- Witness for C2: the general three-tile theorem applied to the
specification's own example configuration. -/
theorem C2_three_equal_tiles_witness :
    (slideLine (threeTileLine 4 0 2 3 ⟨1, 0, 0, 2, false⟩ ⟨2, 0, 2, 2, false⟩
      ⟨3, 0, 3, 2, false⟩) (-1)).gained = 2 * 2 :=
  (C2_three_equal_tiles.2.1 4 0 2 3 ⟨1, 0, 0, 2, false⟩ ⟨2, 0, 2, 2, false⟩
    ⟨3, 0, 3, 2, false⟩ 2 (by decide) (by decide) (by decide) rfl rfl
    rfl).2.2.2.1

/-- C3: within one line-reducer pass, and within one whole `move` call, no
destination is the target of more than one merge: the logged merge
destinations are pairwise distinct (the `locked` set forbids a second merge
into the same cell). -/
theorem C3_at_most_one_merge :
    (∀ (line : List (Option Tile)) (d : Int),
      (slideLine line d).merges.Nodup) ∧
    (∀ (tiles : List Tile) (n : Nat) (dir : Dir),
      (move tiles n dir).merges.Nodup) :=
  ⟨slideLine_merges_nodup, move_merges_nodup⟩

/-- C4: a rejected move (`moved = false`) returns, for a well-formed input,
a tile set equal to the input as a multiset of tile records — same
identities, positions and values — and `gained = 0`. -/
theorem C4_idempotent_rejection (tiles : List Tile) (n : Nat) (dir : Dir)
    (h : wellFormed tiles n) (hm : (move tiles n dir).moved = false) :
    ((move tiles n dir).tiles).Perm tiles ∧ (move tiles n dir).gained = 0 :=
  move_rejected tiles n dir h hm

/-- Witness for C4: a left move on a tile already at the left edge. -/
theorem C4_idempotent_rejection_witness :
    ((move [⟨1, 0, 0, 2, false⟩] 2 Dir.L).tiles).Perm [⟨1, 0, 0, 2, false⟩] ∧
    (move [⟨1, 0, 0, 2, false⟩] 2 Dir.L).gained = 0 :=
  C4_idempotent_rejection [⟨1, 0, 0, 2, false⟩] 2 Dir.L (by decide) (by decide)

/-- C5: the terminal detector returns false exactly when every cell of the
board view is occupied and no two vertically or horizontally adjacent cells
hold equal values. -/
theorem C5_terminal_iff (board : Board) :
    anyMovesLeft board = false ↔
      boardFull board ∧ noAdjacentEqualPairs board :=
  anyMovesLeft_false_iff board

/-- C6: on a board with at least one empty cell, every outcome of the
random draws appends exactly one tile: value 2 or 4, `justMerged` false, a
fresh identity, placed on a cell that was empty, with all input tiles
unchanged (they form the unchanged prefix). -/
theorem C6_spawn_adds_one (tiles : List Tile) (n k : Nat) (four : Bool)
    (newId : Nat)
    (hempty : ∃ r c, r < n ∧ c < n ∧ cellAt (toBoard tiles n) r c = none)
    (hfresh : ∀ u ∈ tiles, u.id ≠ newId) :
    ∃ t : Tile,
      spawn tiles n k four newId = tiles ++ [t] ∧
      (spawn tiles n k four newId).length = tiles.length + 1 ∧
      (t.value = 2 ∨ t.value = 4) ∧ t.bump = false ∧
      (∀ u ∈ tiles, u.id ≠ t.id) ∧
      t.r < n ∧ t.c < n ∧ cellAt (toBoard tiles n) t.r t.c = none := by
  obtain ⟨t, he, hval, hbump, hid, hr, hc, hcell⟩ :=
    spawn_step tiles n k four newId hempty
  refine ⟨t, he, ?_, hval, hbump, ?_, hr, hc, hcell⟩
  · rw [he, List.length_append]
    rfl
  · intro u hu
    rw [hid]
    exact hfresh u hu

/-- Witness for C6: a spawn on a 2×2 board with one occupied cell. -/
theorem C6_spawn_adds_one_witness :
    (spawn [⟨1, 0, 0, 2, false⟩] 2 0 false 5).length = 2 := by
  obtain ⟨t, he, hlen, _⟩ := C6_spawn_adds_one [⟨1, 0, 0, 2, false⟩] 2 0 false 5
    ⟨0, 1, by decide, by decide, by decide⟩ (by decide)
  rw [hlen]
  rfl

/-- C7: on a board with no empty cell, `spawn` is a no-op returning the
input tile set (a total function — no error is signalled). -/
theorem C7_spawn_full_noop (tiles : List Tile) (n k : Nat) (four : Bool)
    (newId : Nat)
    (h : ∀ r c, r < n → c < n → cellAt (toBoard tiles n) r c ≠ none) :
    spawn tiles n k four newId = tiles :=
  spawn_full tiles n k four newId h

/-- Witness for C7: spawning on a full 1×1 board. -/
theorem C7_spawn_full_noop_witness :
    spawn [⟨1, 0, 0, 2, false⟩] 1 3 true 9 = [⟨1, 0, 0, 2, false⟩] :=
  C7_spawn_full_noop [⟨1, 0, 0, 2, false⟩] 1 3 true 9
    (fun r c hr hc => by
      have hr0 : r = 0 := by omega
      have hc0 : c = 0 := by omega
      subst hr0
      subst hc0
      decide)

/-- C8, counterexample: there is no fail-fast "invalid board state" signal.
With two tiles on the same cell, `move` silently returns a normal result in
which the later tile has overwritten the earlier one — one tile disappears,
`moved = false`, `gained = 0`, no error of any kind. -/
theorem C8_counterexample :
    (move [⟨1, 0, 0, 2, false⟩, ⟨2, 0, 0, 2, false⟩] 2 Dir.L).tiles =
      [⟨2, 0, 0, 2, false⟩] ∧
    (move [⟨1, 0, 0, 2, false⟩, ⟨2, 0, 0, 2, false⟩] 2 Dir.L).moved = false ∧
    (move [⟨1, 0, 0, 2, false⟩, ⟨2, 0, 0, 2, false⟩] 2 Dir.L).gained = 0 := by
  decide

/-- C8 (amended): the core performs no invariant validation — on a
duplicate-occupancy input the tile that comes later in the list silently
overwrites the earlier one in the board, with no error signal. -/
theorem C8_duplicate_overwrite (n : Nat) (t1 t2 : Tile)
    (hr : t1.r < n) (hc : t1.c < n) (her : t2.r = t1.r) (hec : t2.c = t1.c) :
    cellAt (toBoard [t1, t2] n) t1.r t1.c = some t2 :=
  toBoard_pair_overwrite n t1 t2 hr hc her hec

/-- Witness for C8: two concrete tiles on cell (0,0). -/
theorem C8_duplicate_overwrite_witness :
    cellAt (toBoard [⟨1, 0, 0, 2, false⟩, ⟨2, 0, 0, 4, false⟩] 2) 0 0 =
      some ⟨2, 0, 0, 4, false⟩ :=
  C8_duplicate_overwrite 2 ⟨1, 0, 0, 2, false⟩ ⟨2, 0, 0, 4, false⟩
    (by decide) (by decide) rfl rfl

/-- C9: the line reducer reports `moved = true` exactly when some tile
relocated or some merge occurred during the pass (the ghost event logs are
nonempty); an empty line is a no-op with `gained = 0`, and a fully packed
line with no adjacent equal pair is a no-op with `gained = 0`, for either
slide direction. -/
theorem C9_moved_iff_events :
    (∀ (line : List (Option Tile)) (d : Int),
      (slideLine line d).moved = true ↔
        (slideLine line d).merges ≠ [] ∨ (slideLine line d).relocs ≠ []) ∧
    (∀ (n : Nat) (d : Int),
      slideLine (List.replicate n none) d =
        { line := List.replicate n none, locked := [], moved := false,
          gained := 0, merges := [], relocs := [] }) ∧
    (∀ (l : List (Option Tile)) (d : Int), (d = -1 ∨ d = 1) →
      (∀ i, i < l.length → l.getD i none ≠ none) →
      (∀ i u w, i + 1 < l.length → l.getD i none = some u →
        l.getD (i + 1) none = some w → u.value ≠ w.value) →
      slideLine l d =
        { line := l, locked := [], moved := false, gained := 0, merges := [],
          relocs := [] }) :=
  ⟨slideLine_moved_iff, slideLine_empty_line,
    fun l d hd hf ha => slideLine_packed l d hd hf ha⟩

/-- Witness for C9: the packed-line clause applied to the packed line
`[2, 4]` with no adjacent equal pair. -/
theorem C9_moved_iff_events_witness :
    slideLine [some ⟨1, 0, 0, 2, false⟩, some ⟨2, 0, 1, 4, false⟩] (-1) =
      { line := [some ⟨1, 0, 0, 2, false⟩, some ⟨2, 0, 1, 4, false⟩],
        locked := [], moved := false, gained := 0, merges := [],
        relocs := [] } := by
  apply C9_moved_iff_events.2.2 _ (-1) (Or.inl rfl)
  · decide
  · intro i u w h1 h2 h3
    have h1n : i + 1 < 2 := h1
    have hi : i = 0 := by omega
    subst hi
    have h2n : some (⟨1, 0, 0, 2, false⟩ : Tile) = some u := h2
    have h3n : some (⟨2, 0, 1, 4, false⟩ : Tile) = some w := h3
    injection h2n with he2
    injection h3n with he3
    rw [← he2, ← he3]
    decide

/-- C10: for a well-formed input, the tile set returned by `move` is well
formed — no two tiles share a cell, all coordinates in range — and each
returned tile occupies exactly the board cell named by its stored
coordinates. -/
theorem C10_move_wellFormed (tiles : List Tile) (n : Nat) (dir : Dir)
    (_h : wellFormed tiles n) :
    wellFormed (move tiles n dir).tiles n ∧
    ∀ t ∈ (move tiles n dir).tiles,
      cellAt (toBoard (move tiles n dir).tiles n) t.r t.c = some t :=
  ⟨move_wellFormed_out tiles n dir,
    toBoard_lookup_self _ n (move_wellFormed_out tiles n dir)⟩

/-- Witness for C10: a concrete merging move on a 2×2 board. -/
theorem C10_move_wellFormed_witness :
    wellFormed (move [⟨1, 0, 0, 2, false⟩, ⟨2, 0, 1, 2, false⟩] 2 Dir.L).tiles
      2 :=
  (C10_move_wellFormed [⟨1, 0, 0, 2, false⟩, ⟨2, 0, 1, 2, false⟩] 2 Dir.L
    (by decide)).1

-- Sanity checks of the embedding on the specification's worked examples.
example :
    (slideLine [some ⟨1, 0, 0, 2, false⟩, none, some ⟨2, 0, 2, 2, false⟩,
      some ⟨3, 0, 3, 2, false⟩] (-1)).line =
      [some ⟨1, 0, 0, 4, true⟩, some ⟨3, 0, 3, 2, false⟩, none, none] := by decide

example :
    (slideLine [some ⟨1, 0, 0, 2, false⟩, none, some ⟨2, 0, 2, 2, false⟩,
      some ⟨3, 0, 3, 2, false⟩] (-1)).gained = 4 := by decide

example :
    (slideLine [some ⟨1, 0, 0, 2, false⟩, some ⟨2, 0, 1, 2, false⟩,
      some ⟨3, 0, 2, 4, false⟩, none] (-1)).line =
      [some ⟨1, 0, 0, 4, true⟩, some ⟨3, 0, 2, 4, false⟩, none, none] := by decide
